import Mathlib

set_option maxHeartbeats 4000000

/-!
Shallow embedding of the memory-management core of the eos kernel
(src/page.rs and src/lib.rs) and proofs about it.

Modelling conventions:
* usize / u64 / i64 values are Nat, with an explicit % 2^64 (or a 64-bit
  mask) at the places where the Rust code casts or where wrap-around is
  possible.  Wrapping subtraction on usize is modelled by wsub; the Rust
  bitwise NOT !x on a 64-bit value is modelled by notMask64.
* The frame-descriptor table (the Page structs at HEAP_START) is a total
  function descs : Nat -> Nat giving the flag byte of each frame index.
  Indices below num_pages are the real table; larger indices model the
  bytes of RAM that follow the table, which the code reads when its scan
  bound wraps around.
* RAM holding page tables is a total function mem : Nat -> Nat giving the
  64-bit entry stored at a byte address (entries live at base + 8*i).
* A failed assert! halts the machine; a slice index out of bounds panics.
  Both are surfaced through the Exec result type.  The unbounded while
  loop in dealloc is modelled with explicit fuel; running out of fuel is
  a modelling artifact reported separately from the fatal outcomes.
-/

namespace Eos

/-- PAGE_SIZE from src/page.rs line 26: 1 << 12. -/
def PAGE_SIZE : Nat := 1 <<< 12

/-- WSIZE is 2^64, the number of values of usize / u64 on the target. -/
def WSIZE : Nat := 2 ^ 64

/-- wsub models wrapping (two's complement) subtraction on usize. -/
def wsub (a b : Nat) : Nat := (a + (WSIZE - b % WSIZE)) % WSIZE

/-- notMask64 models the Rust bitwise NOT !x of a 64-bit value: xor with
all ones. -/
def notMask64 (x : Nat) : Nat := (WSIZE - 1) ^^^ x

/-- align_val from src/page.rs lines 29-32: with o = (1 << order) - 1 it
returns (val + o) & !o.  (In Rust the addition can overflow for val near
2^64; theorems using align_val carry a no-overflow hypothesis.) -/
def align_val (val order : Nat) : Nat :=
  (val + ((1 <<< order) - 1)) &&& notMask64 ((1 <<< order) - 1)

/-- Outcome of running a piece of the kernel: normal completion, a failed
assert! (fatal halt), an out-of-bounds slice index (panic), or loop-fuel
exhaustion (a modelling artifact only). -/
inductive Exec (α : Type) : Type where
  | ok (val : α)
  | fatal
  | panic
  | fuelOut
  deriving DecidableEq

/-- Machine state seen by this core: the 64-bit word of RAM at each byte
address, and the flag byte of each frame descriptor. -/
structure Machine where
  mem : Nat → Nat
  descs : Nat → Nat

/-- Page::is_taken from src/page.rs: flag bit 0 (PageBits::Taken). -/
def isTaken (f : Nat) : Bool := f &&& 1 != 0

/-- Page::is_last from src/page.rs: flag bit 1 (PageBits::Last). -/
def isLast (f : Nat) : Bool := f &&& 2 != 0

/-- The inner check of alloc (src/page.rs lines 117-126): start index i is
accepted when descriptors i .. i+pages-1 are all free. -/
def isFreeRun (d : Nat → Nat) (i pages : Nat) : Bool :=
  (List.range pages).all fun j => !(isTaken (d (i + j)))

/-- The first-fit scan of alloc (src/page.rs lines 114-137): try start
indices i, i+1, ... for fuel steps and return the first accepted one. -/
def findRun (d : Nat → Nat) (pages : Nat) : Nat → Nat → Option Nat
  | _, 0 => none
  | i, fuel + 1 => if isFreeRun d i pages then some i else findRun d pages (i + 1) fuel

/-- The marking loop of alloc (src/page.rs lines 128-134): descriptors
i .. i+pages-2 get Taken, descriptor i+pages-1 gets Taken then Last. -/
def allocMark (d : Nat → Nat) (i pages : Nat) : Nat → Nat := fun k =>
  if i ≤ k ∧ k < i + pages - 1 then d k ||| 1
  else if k = i + pages - 1 then d k ||| 1 ||| 2
  else d k

/-- alloc from src/page.rs lines 109-142.  np is HEAP_SIZE / PAGE_SIZE and
allocStart is ALLOC_START.  The scan bound num_pages - pages is the
wrapping usize subtraction wsub np pages (the Rust release build wraps;
a debug build would panic when pages > np).  Returns the address
ALLOC_START + PAGE_SIZE*i of the found run, or none (the null sentinel),
together with the updated descriptor table.  The assert!(pages > 0) at
entry corresponds to the hypothesis 1 <= pages carried by the theorems. -/
def alloc (d : Nat → Nat) (np allocStart pages : Nat) : Option Nat × (Nat → Nat) :=
  match findRun d pages 0 (wsub np pages) with
  | some i => (some (allocStart + 4096 * i), allocMark d i pages)
  | none => (none, d)

/-- zalloc from src/page.rs lines 166-179: calls alloc, and when the
result is non-null runs a loop of (PAGE_SIZE*pages)/8 iterations whose
body is an empty unsafe block -- no store to memory is performed, so mem
is returned unchanged. -/
def zalloc (m : Machine) (np allocStart pages : Nat) : Option Nat × Machine :=
  let r := alloc m.descs np allocStart pages
  (r.1, ⟨m.mem, r.2⟩)

/-- Page::clear from src/page.rs lines 79-81: set the flag byte of one
descriptor to Empty (0). -/
def clearAt (d : Nat → Nat) (p : Nat) : Nat → Nat := fun k => if k = p then 0 else d k

/-- The while loop of dealloc (src/page.rs lines 153-161): clear
descriptors while Taken and not Last; on exit the assert!((*p).is_last())
treats a non-Last stop as a fatal possible double-free. -/
def deallocWalk (d : Nat → Nat) : Nat → Nat → Exec (Nat → Nat)
  | _, 0 => .fuelOut
  | p, fuel + 1 =>
    if isTaken (d p) ∧ ¬ isLast (d p) then deallocWalk (clearAt d p) (p + 1) fuel
    else if isLast (d p) then .ok (clearAt d p)
    else .fatal

/-- dealloc from src/page.rs lines 145-163.  heapSize is HEAP_SIZE in
bytes.  The frame index is (addr - ALLOC_START) / PAGE_SIZE (wrapping
subtraction), and the range assert page_addr < HEAP_START + HEAP_SIZE
becomes idx < heapSize.  assert!(!page_ptr.is_null()) makes address 0
fatal. -/
def dealloc (d : Nat → Nat) (heapSize allocStart addr fuel : Nat) : Exec (Nat → Nat) :=
  if addr = 0 then .fatal
  else if wsub addr allocStart / 4096 < heapSize then
    deallocWalk d (wsub addr allocStart / 4096) fuel
  else .fatal

/-! Basic lemmas about the allocator scan. -/

lemma wsub_eq_sub {a b : Nat} (hba : b ≤ a) (ha : a < 2 ^ 64) :
    wsub a b = a - b := by
  unfold wsub WSIZE
  rw [Nat.mod_eq_of_lt (lt_of_le_of_lt hba ha)]
  have h1 : a + (2 ^ 64 - b) = (a - b) + 2 ^ 64 := by omega
  rw [h1, Nat.add_mod_right, Nat.mod_eq_of_lt (by omega)]

lemma wsub_self {a : Nat} (ha : a < 2 ^ 64) : wsub a a = 0 := by
  rw [wsub_eq_sub le_rfl ha, Nat.sub_self]

lemma findRun_some {d : Nat → Nat} {p : Nat} :
    ∀ {fuel s i}, findRun d p s fuel = some i →
      isFreeRun d i p = true ∧ s ≤ i ∧ i < s + fuel := by
  intro fuel
  induction fuel with
  | zero => intro s i h; simp [findRun] at h
  | succ n ih =>
    intro s i h
    unfold findRun at h
    by_cases hc : isFreeRun d s p = true
    · simp [hc] at h; subst h; exact ⟨hc, le_rfl, by omega⟩
    · simp [hc] at h
      obtain ⟨h1, h2, h3⟩ := ih h
      exact ⟨h1, by omega, by omega⟩

lemma findRun_zero_head {d : Nat → Nat} {p fuel : Nat} (hf : 0 < fuel)
    (h : isFreeRun d 0 p = true) : findRun d p 0 fuel = some 0 := by
  cases fuel with
  | zero => omega
  | succ n => unfold findRun; simp [h]

lemma isFreeRun_iff {d : Nat → Nat} {i p : Nat} :
    isFreeRun d i p = true ↔ ∀ j, j < p → isTaken (d (i + j)) = false := by
  unfold isFreeRun
  rw [List.all_eq_true]
  constructor
  · intro h j hj
    have := h j (List.mem_range.mpr hj)
    simpa using this
  · intro h j hj
    simpa using h j (List.mem_range.mp hj)

/-! Claim C10: requesting exactly num_frames pages always fails, because the
scan bound num_pages - pages is 0. -/

/-- C10: with every frame descriptor free, alloc(num_frames) returns the
null sentinel: the first-fit scan iterates start indices strictly below
num_frames - count = 0, so it never considers start index 0 where the
full-length free run begins. -/
theorem alloc_all_frames_fails (np A : Nat) (_hnp : 1 ≤ np) (hw : np < 2 ^ 64) :
    (alloc (fun _ => 0) np A np).1 = none := by
  unfold alloc
  rw [wsub_self hw]
  rfl

/-- Witness for alloc_all_frames_fails at np = 8, A = 0x2000. -/
theorem alloc_all_frames_fails_witness :
    1 ≤ 8 ∧ (alloc (fun _ => 0) 8 0x2000 8).1 = none :=
  ⟨by decide, alloc_all_frames_fails 8 0x2000 (by decide) (by decide)⟩

/-! Claim C4: the code is wrong for count = num_frames + 1.  The loop bound
num_pages - pages underflows: a debug build panics on the subtraction, and
a release build wraps to 2^64 - 1, after which the scan reads descriptor
bytes far beyond the table.  The theorem below evaluates the wrapped-scan
model on a machine whose RAM beyond the 8-entry table reads as zero: the
scan then accepts start index 0 and returns a non-null address for a
9-frame run inside an 8-frame heap, instead of the null sentinel the
claim requires. -/

/-- C4 (code bug demonstration): on an 8-frame heap with all descriptors
free (and the RAM after the table reading as zero), alloc(9) does not
return the null failure sentinel: the wrapped bound 2^64 - 1 lets the scan
accept index 0, so it hands out ALLOC_START even though only 8 frames
exist. -/
theorem alloc_overflow_bug :
    wsub 8 9 = 2 ^ 64 - 1 ∧ (alloc (fun _ => 0) 8 0x2000 9).1 = some 0x2000 := by
  have hb : wsub 8 9 = 2 ^ 64 - 1 := by decide
  refine ⟨hb, ?_⟩
  unfold alloc
  rw [hb, findRun_zero_head (by decide) (by decide)]

/-! Claim C2: zalloc never zeroes.  The zero-fill loop in src/page.rs
lines 171-176 has an empty body (the unsafe block contains no statement),
so the returned region keeps whatever bytes it held. -/

/-- C2 (code bug demonstration): zalloc(1) on an 8-frame heap succeeds,
returning the page at 0x2000, yet the word at address 0x2345 inside the
returned page still reads 0xAB -- not zero -- because the zero-fill loop
body is empty.  In general (zalloc m np A p).2.mem = m.mem holds by
definition of the embedding of the empty loop. -/
theorem zalloc_does_not_zero :
    (zalloc ⟨fun a => if a = 0x2345 then 0xAB else 0, fun _ => 0⟩ 8 0x2000 1).1
        = some 0x2000
      ∧ (zalloc ⟨fun a => if a = 0x2345 then 0xAB else 0, fun _ => 0⟩ 8 0x2000 1).2.mem 0x2345
        = 0xAB := by
  constructor
  · unfold zalloc alloc
    rw [wsub_eq_sub (by decide) (by decide), findRun_zero_head (by decide) (by decide)]
  · rfl

/-! Lemmas about allocMark and the dealloc walk, used for the
alloc/dealloc round-trip claims. -/

lemma alloc_of_findRun_some {d : Nat → Nat} {np A n i : Nat}
    (hf : findRun d n 0 (wsub np n) = some i) :
    alloc d np A n = (some (A + 4096 * i), allocMark d i n) := by
  unfold alloc
  rw [hf]

lemma alloc_of_findRun_none {d : Nat → Nat} {np A n : Nat}
    (hf : findRun d n 0 (wsub np n) = none) :
    alloc d np A n = (none, d) := by
  unfold alloc
  rw [hf]

lemma allocMark_mid {d : Nat → Nat} {i n k : Nat} (h1 : i ≤ k) (h2 : k < i + n - 1) :
    allocMark d i n k = d k ||| 1 := by
  unfold allocMark
  rw [if_pos ⟨h1, h2⟩]

lemma allocMark_last {d : Nat → Nat} {i n : Nat} :
    allocMark d i n (i + n - 1) = d (i + n - 1) ||| 1 ||| 2 := by
  unfold allocMark
  rw [if_neg (by omega), if_pos rfl]

lemma allocMark_out {d : Nat → Nat} {i n k : Nat} (hn : 1 ≤ n)
    (h : k < i ∨ i + n - 1 < k) : allocMark d i n k = d k := by
  unfold allocMark
  rw [if_neg (by omega), if_neg (by omega)]

lemma testBit_one_succ (n : Nat) : Nat.testBit 1 (n + 1) = false := by
  rw [show (1 : Nat) = 2 ^ 0 by norm_num, Nat.testBit_two_pow]
  simp

lemma land_one_or_one (x : Nat) : (x ||| 1) &&& 1 = 1 := by
  apply Nat.eq_of_testBit_eq
  intro i
  rw [Nat.testBit_land, Nat.testBit_lor]
  cases i with
  | zero => simp [show Nat.testBit 1 0 = true by decide]
  | succ n => simp [testBit_one_succ n]

lemma land_one_or_two (x : Nat) : (x ||| 2) &&& 1 = x &&& 1 := by
  apply Nat.eq_of_testBit_eq
  intro i
  rw [Nat.testBit_land, Nat.testBit_land, Nat.testBit_lor]
  cases i with
  | zero => simp [show Nat.testBit 2 0 = false by decide]
  | succ n => simp [testBit_one_succ n]

lemma isTaken_or_one (x : Nat) : isTaken (x ||| 1) = true := by
  unfold isTaken
  rw [land_one_or_one]
  decide

lemma isTaken_or_two (x : Nat) : isTaken (x ||| 2) = isTaken x := by
  unfold isTaken
  rw [land_one_or_two]

/-- The dealloc while loop clears a run of descriptors of the shape
1, 1, ..., 1, 3 and stops exactly at the Last-marked one. -/
lemma deallocWalk_run :
    ∀ (len : Nat) (d : Nat → Nat) (start fuel : Nat), 1 ≤ len → len ≤ fuel →
      (∀ j, j < len - 1 → d (start + j) = 1) →
      d (start + (len - 1)) = 3 →
      ∃ d2, deallocWalk d start fuel = .ok d2 ∧
        ∀ k, d2 k = if start ≤ k ∧ k < start + len then 0 else d k := by
  intro len
  induction len with
  | zero => intro d start fuel h1; omega
  | succ l ih =>
    intro d start fuel _ hfuel hmid hlast
    obtain ⟨f, rfl⟩ : ∃ f, fuel = f + 1 := ⟨fuel - 1, by omega⟩
    cases l with
    | zero =>
      simp only [Nat.add_sub_cancel, Nat.add_zero] at hlast
      refine ⟨clearAt d start, ?_, ?_⟩
      · simp only [deallocWalk]
        rw [if_neg (by rw [hlast]; decide), if_pos (by rw [hlast]; decide)]
      · intro k
        unfold clearAt
        split_ifs <;> omega
    | succ l2 =>
      have hd0 : d start = 1 := by
        have := hmid 0 (by omega)
        simpa using this
      have hstep : deallocWalk d start (f + 1) = deallocWalk (clearAt d start) (start + 1) f := by
        simp only [deallocWalk]
        rw [if_pos ⟨by rw [hd0]; decide, by rw [hd0]; decide⟩]
      obtain ⟨d2, hrun, hchar⟩ :=
        ih (clearAt d start) (start + 1) f (by omega) (by omega)
          (fun j hj => by
            unfold clearAt
            rw [if_neg (by omega)]
            have := hmid (j + 1) (by omega)
            rw [show start + 1 + j = start + (j + 1) by omega]
            exact this)
          (by
            unfold clearAt
            rw [if_neg (by omega)]
            rw [show start + 1 + (l2 + 1 - 1) = start + (l2 + 1 + 1 - 1) by omega]
            exact hlast)
      refine ⟨d2, by rw [hstep]; exact hrun, ?_⟩
      intro k
      rw [hchar k]
      unfold clearAt
      split_ifs <;> omega

/-- Shared core of the round-trip claims: a successful alloc(n) starting
from a table whose free descriptors are all Empty finds a run i of n free
(hence zero) descriptors, and the matching dealloc succeeds and restores
every descriptor. -/
lemma roundtrip_core {d : Nat → Nat} {np A n a fuel : Nat}
    (hfree : ∀ i, isTaken (d i) = false → d i = 0)
    (hn : 1 ≤ n) (hnnp : n ≤ np) (hA : 1 ≤ A)
    (hsz : A + 4096 * np ≤ 2 ^ 64) (hfuel : n ≤ fuel)
    (ha : (alloc d np A n).1 = some a) :
    ∃ i, a = A + 4096 * i ∧ i + n ≤ np ∧ (∀ j, j < n → d (i + j) = 0) ∧
      ∃ d2, dealloc (alloc d np A n).2 (4096 * np) A a fuel = .ok d2 ∧
        ∀ k, d2 k = d k := by
  have hw64 : np < 2 ^ 64 := by omega
  have hw : wsub np n = np - n := wsub_eq_sub hnnp hw64
  cases hf : findRun d n 0 (wsub np n) with
  | none => rw [alloc_of_findRun_none hf] at ha; simp at ha
  | some i =>
    rw [alloc_of_findRun_some hf] at ha
    simp only [Option.some.injEq] at ha
    obtain rfl : a = A + 4096 * i := ha.symm
    obtain ⟨hrun, -, hib⟩ := findRun_some hf
    rw [hw] at hib
    have freej : ∀ j, j < n → d (i + j) = 0 := fun j hj =>
      hfree _ (isFreeRun_iff.mp hrun j hj)
    refine ⟨i, rfl, by omega, freej, ?_⟩
    rw [alloc_of_findRun_some hf]
    unfold dealloc
    rw [if_neg (by omega)]
    have hidx : wsub (A + 4096 * i) A / 4096 = i := by
      rw [wsub_eq_sub (by omega) (by omega)]
      rw [Nat.add_sub_cancel_left, Nat.mul_div_cancel_left i (by norm_num)]
    rw [hidx, if_pos (by omega)]
    obtain ⟨d2, hrun2, hchar⟩ :=
      deallocWalk_run n (allocMark d i n) i fuel hn hfuel
        (fun j hj => by
          rw [allocMark_mid (by omega) (by omega), freej j (by omega)]
          decide)
        (by
          rw [show i + (n - 1) = i + n - 1 by omega, allocMark_last,
            show i + n - 1 = i + (n - 1) by omega, freej (n - 1) (by omega)]
          decide)
    refine ⟨d2, hrun2, ?_⟩
    intro k
    rw [hchar k]
    by_cases hin : i ≤ k ∧ k < i + n
    · rw [if_pos hin]
      have := freej (k - i) (by omega)
      rw [show i + (k - i) = k by omega] at this
      omega
    · rw [if_neg hin, allocMark_out hn (by omega)]

/-- C5: for n >= 1, if alloc(n) returns a non-null address a then dealloc(a)
restores the frame-descriptor table to its pre-allocation state: the
resulting table equals the original at every index (in particular the
allocated span is Empty again).  The hypothesis hfree states the claim's
presupposition that free descriptors are Empty (flag byte 0), which holds
in every state produced by init/alloc/dealloc. -/
theorem alloc_dealloc_roundtrip {d : Nat → Nat} {np A n a fuel : Nat}
    (hfree : ∀ i, isTaken (d i) = false → d i = 0)
    (hn : 1 ≤ n) (hnnp : n ≤ np) (hA : 1 ≤ A)
    (hsz : A + 4096 * np ≤ 2 ^ 64) (hfuel : n ≤ fuel)
    (ha : (alloc d np A n).1 = some a) :
    ∃ d2, dealloc (alloc d np A n).2 (4096 * np) A a fuel = .ok d2 ∧
      ∀ k, d2 k = d k := by
  obtain ⟨i, -, -, -, h⟩ := roundtrip_core hfree hn hnnp hA hsz hfuel ha
  exact h

/-- Witness for alloc_dealloc_roundtrip: all-free 8-frame heap,
ALLOC_START = 0x2000, n = 2, fuel = 2. -/
theorem alloc_dealloc_roundtrip_witness :
    (alloc (fun _ => 0) 8 0x2000 2).1 = some 0x2000 ∧
      ∃ d2, dealloc (alloc (fun _ => 0) 8 0x2000 2).2 (4096 * 8) 0x2000 0x2000 2 = .ok d2 ∧
        ∀ k, d2 k = (fun _ => 0) k := by
  have ha : (alloc (fun _ => (0 : Nat)) 8 0x2000 2).1 = some 0x2000 := by
    unfold alloc
    rw [wsub_eq_sub (by decide) (by decide), findRun_zero_head (by decide) (by decide)]
  exact ⟨ha, alloc_dealloc_roundtrip (fun i _ => rfl) (by decide) (by decide)
    (by decide) (by decide) (by decide) ha⟩

/-- C8: after an alloc/dealloc round trip, a second dealloc of the same
address is detected as fatal: the descriptor at the frame index is Empty
again, so the Last-bit walk stops immediately on a free frame and the
assert with the possible double-free message fires (the walk needs only
one step, hence fuel 1). -/
theorem dealloc_double_free_fatal {d : Nat → Nat} {np A n a fuel : Nat}
    (hfree : ∀ i, isTaken (d i) = false → d i = 0)
    (hn : 1 ≤ n) (hnnp : n ≤ np) (hA : 1 ≤ A)
    (hsz : A + 4096 * np ≤ 2 ^ 64) (hfuel : n ≤ fuel)
    (ha : (alloc d np A n).1 = some a) :
    ∃ d2, dealloc (alloc d np A n).2 (4096 * np) A a fuel = .ok d2 ∧
      dealloc d2 (4096 * np) A a 1 = .fatal := by
  obtain ⟨i, haddr, hin, hfreej, d2, hok, hchar⟩ :=
    roundtrip_core hfree hn hnnp hA hsz hfuel ha
  refine ⟨d2, hok, ?_⟩
  subst haddr
  unfold dealloc
  rw [if_neg (by omega)]
  have hidx : wsub (A + 4096 * i) A / 4096 = i := by
    rw [wsub_eq_sub (by omega) (by omega)]
    rw [Nat.add_sub_cancel_left, Nat.mul_div_cancel_left i (by norm_num)]
  rw [hidx, if_pos (by omega)]
  have hd2i : d2 i = 0 := by
    rw [hchar i]
    have := hfreej 0 (by omega)
    simpa using this
  simp only [deallocWalk]
  rw [if_neg (by rw [hd2i]; decide), if_neg (by rw [hd2i]; decide)]

/-- Witness for dealloc_double_free_fatal at the concrete configuration of
the round-trip witness. -/
theorem dealloc_double_free_fatal_witness :
    (alloc (fun _ => 0) 8 0x2000 2).1 = some 0x2000 ∧
      ∃ d2, dealloc (alloc (fun _ => 0) 8 0x2000 2).2 (4096 * 8) 0x2000 0x2000 2 = .ok d2 ∧
        dealloc d2 (4096 * 8) 0x2000 0x2000 1 = .fatal := by
  have ha : (alloc (fun _ => (0 : Nat)) 8 0x2000 2).1 = some 0x2000 := by
    unfold alloc
    rw [wsub_eq_sub (by decide) (by decide), findRun_zero_head (by decide) (by decide)]
  exact ⟨ha, dealloc_double_free_fatal (fun i _ => rfl) (by decide) (by decide)
    (by decide) (by decide) (by decide) ha⟩

/-- C6: two successive successful allocations (with the first still live)
return byte ranges [a1, a1 + n1*4096) and [a2, a2 + n2*4096) that are
disjoint: the first allocation marks its whole span Taken, and the second
allocation only accepts a span that is entirely free. -/
theorem alloc_alloc_disjoint {d : Nat → Nat} {np A n1 n2 a1 a2 : Nat}
    (h1 : 1 ≤ n1) (h2 : 1 ≤ n2) (hn1 : n1 ≤ np) (hn2 : n2 ≤ np) (hw : np < 2 ^ 64)
    (ha1 : (alloc d np A n1).1 = some a1)
    (ha2 : (alloc (alloc d np A n1).2 np A n2).1 = some a2) :
    ∀ b, ¬ (a1 ≤ b ∧ b < a1 + 4096 * n1 ∧ a2 ≤ b ∧ b < a2 + 4096 * n2) := by
  cases hf1 : findRun d n1 0 (wsub np n1) with
  | none => rw [alloc_of_findRun_none hf1] at ha1; simp at ha1
  | some i1 =>
    rw [alloc_of_findRun_some hf1] at ha1 ha2
    simp only [Option.some.injEq] at ha1
    obtain rfl : a1 = A + 4096 * i1 := ha1.symm
    cases hf2 : findRun (allocMark d i1 n1) n2 0 (wsub np n2) with
    | none =>
      rw [show ((some (A + 4096 * i1), allocMark d i1 n1) : Option Nat × (Nat → Nat)).2
          = allocMark d i1 n1 from rfl, alloc_of_findRun_none hf2] at ha2
      simp at ha2
    | some i2 =>
      rw [show ((some (A + 4096 * i1), allocMark d i1 n1) : Option Nat × (Nat → Nat)).2
          = allocMark d i1 n1 from rfl, alloc_of_findRun_some hf2] at ha2
      simp only [Option.some.injEq] at ha2
      obtain rfl : a2 = A + 4096 * i2 := ha2.symm
      obtain ⟨hrun1, -, -⟩ := findRun_some hf1
      obtain ⟨hrun2, -, -⟩ := findRun_some hf2
      have htaken : ∀ j, j < n1 → isTaken (allocMark d i1 n1 (i1 + j)) = true := by
        intro j hj
        by_cases hl : j = n1 - 1
        · subst hl
          rw [show i1 + (n1 - 1) = i1 + n1 - 1 by omega, allocMark_last]
          rw [isTaken_or_two]
          exact isTaken_or_one _
        · rw [allocMark_mid (by omega) (by omega)]
          exact isTaken_or_one _
      have hfree2 : ∀ j, j < n2 → isTaken (allocMark d i1 n1 (i2 + j)) = false :=
        fun j hj => isFreeRun_iff.mp hrun2 j hj
      have hdisj : i1 + n1 ≤ i2 ∨ i2 + n2 ≤ i1 := by
        by_contra hcon
        push_neg at hcon
        have hm1 := htaken (max i1 i2 - i1) (by omega)
        have hm2 := hfree2 (max i1 i2 - i2) (by omega)
        rw [show i1 + (max i1 i2 - i1) = max i1 i2 by omega] at hm1
        rw [show i2 + (max i1 i2 - i2) = max i1 i2 by omega] at hm2
        rw [hm1] at hm2
        exact absurd hm2 (by decide)
      intro b hb
      obtain ⟨hb1, hb2, hb3, hb4⟩ := hb
      rcases hdisj with hle | hle
      · have : 4096 * i1 + 4096 * n1 ≤ 4096 * i2 := by omega
        omega
      · have : 4096 * i2 + 4096 * n2 ≤ 4096 * i1 := by omega
        omega

/-- Witness for alloc_alloc_disjoint: n1 = 1 then n2 = 2 on an all-free
8-frame heap; the returned ranges start at 0x2000 and 0x3000. -/
theorem alloc_alloc_disjoint_witness :
    (alloc (fun _ => 0) 8 0x2000 1).1 = some 0x2000 ∧
      (alloc (alloc (fun _ => 0) 8 0x2000 1).2 8 0x2000 2).1 = some 0x3000 ∧
      ∀ b, ¬ (0x2000 ≤ b ∧ b < 0x2000 + 4096 * 1 ∧ 0x3000 ≤ b ∧ b < 0x3000 + 4096 * 2) := by
  have ha1 : (alloc (fun _ => (0 : Nat)) 8 0x2000 1).1 = some 0x2000 := by
    unfold alloc
    rw [wsub_eq_sub (by decide) (by decide), findRun_zero_head (by decide) (by decide)]
  have ha2 : (alloc (alloc (fun _ => (0 : Nat)) 8 0x2000 1).2 8 0x2000 2).1 = some 0x3000 := by
    decide
  exact ⟨ha1, ha2, alloc_alloc_disjoint (by decide) (by decide) (by decide)
    (by decide) (by decide) ha1 ha2⟩



/-! Page-table entries (src/page.rs lines 268-308) and unmap. -/

/-- Entry::is_valid from src/page.rs lines 274-276: Valid is bit 0. -/
def entry_is_valid (e : Nat) : Bool := e &&& 1 != 0

/-- Entry::is_leaf from src/page.rs lines 283-285: an entry is a leaf when
any of bits 1-3 (Read/Write/Execute, mask 0xe) is set. -/
def entry_is_leaf (e : Nat) : Bool := e &&& 0xe != 0

/-- Table::len from src/page.rs lines 305-307: size_of::<Table>(), which
is 512 entries of 8 bytes each -- 4096, not the entry count 512. -/
def TableLen : Nat := 512 * 8

/-- Sequencing of kernel steps: a fatal halt, panic or fuel exhaustion in
the first step aborts the rest. -/
def execBind {α β : Type} (r : Exec α) (f : α → Exec β) : Exec β :=
  match r with
  | .ok v => f v
  | .fatal => .fatal
  | .panic => .panic
  | .fuelOut => .fuelOut

/-- The address of the child table stored in a branch entry:
(entry & !0x3ff) << 2, cast to a pointer (64-bit). -/
def childAddr (e : Nat) : Nat := ((e &&& notMask64 0x3ff) <<< 2) % WSIZE

/-- The inner loop of unmap (src/page.rs lines 384-392) over the list of
lv1 indices 0 .. Table::len()-1: indexing entries[lv1] with lv1 >= 512 is
an out-of-bounds panic; a valid branch entry deallocates the grandchild
frame. -/
def unmapInner (np A fuel tableAddr : Nat) : Machine → List Nat → Exec Machine
  | m, [] => .ok m
  | m, lv1 :: rest =>
    if 512 ≤ lv1 then .panic
    else if entry_is_valid (m.mem (tableAddr + 8 * lv1))
        ∧ ¬ entry_is_leaf (m.mem (tableAddr + 8 * lv1)) then
      execBind (dealloc m.descs (4096 * np) A (childAddr (m.mem (tableAddr + 8 * lv1))) fuel)
        (fun d2 => unmapInner np A fuel tableAddr ⟨m.mem, d2⟩ rest)
    else unmapInner np A fuel tableAddr m rest

/-- The outer loop of unmap (src/page.rs lines 376-397) over the list of
lv2 indices 0 .. Table::len()-1: indexing entries[lv2] with lv2 >= 512 is
an out-of-bounds panic; a valid branch entry runs the inner loop on the
child table and then deallocates the child frame. -/
def unmapOuter (np A R fuel : Nat) : Machine → List Nat → Exec Machine
  | m, [] => .ok m
  | m, lv2 :: rest =>
    if 512 ≤ lv2 then .panic
    else if entry_is_valid (m.mem (R + 8 * lv2))
        ∧ ¬ entry_is_leaf (m.mem (R + 8 * lv2)) then
      execBind (unmapInner np A fuel (childAddr (m.mem (R + 8 * lv2))) m (List.range TableLen))
        (fun m1 =>
          execBind (dealloc m1.descs (4096 * np) A (childAddr (m.mem (R + 8 * lv2))) fuel)
            (fun d2 => unmapOuter np A R fuel ⟨m1.mem, d2⟩ rest))
    else unmapOuter np A R fuel m rest

/-- unmap from src/page.rs lines 375-398, for a root table at address R. -/
def unmap (np A R fuel : Nat) (m : Machine) : Exec Machine :=
  unmapOuter np A R fuel m (List.range TableLen)

lemma execBind_no_ok {α β : Type} {r : Exec α} {f : α → Exec β}
    (h : ∀ v b, f v ≠ .ok b) : ∀ b, execBind r f ≠ .ok b := by
  cases r with
  | ok v => exact h v
  | fatal => intro b hc; exact Exec.noConfusion hc
  | panic => intro b hc; exact Exec.noConfusion hc
  | fuelOut => intro b hc; exact Exec.noConfusion hc

lemma unmapInner_no_ok (np A fuel tableAddr : Nat) :
    ∀ (l : List Nat) (m : Machine), (∃ x ∈ l, 512 ≤ x) →
      ∀ m', unmapInner np A fuel tableAddr m l ≠ .ok m' := by
  intro l
  induction l with
  | nil => intro m h; simp at h
  | cons hd t ih =>
    intro m hex m'
    by_cases hh : 512 ≤ hd
    · simp only [unmapInner]
      rw [if_pos hh]
      intro hc
      exact Exec.noConfusion hc
    · have hex' : ∃ x ∈ t, 512 ≤ x := by
        obtain ⟨x, hx, hx5⟩ := hex
        rcases List.mem_cons.mp hx with rfl | hxt
        · omega
        · exact ⟨x, hxt, hx5⟩
      simp only [unmapInner]
      rw [if_neg hh]
      by_cases hc : entry_is_valid (m.mem (tableAddr + 8 * hd)) = true
          ∧ ¬ entry_is_leaf (m.mem (tableAddr + 8 * hd)) = true
      · rw [if_pos hc]
        exact execBind_no_ok (fun d2 b => ih ⟨m.mem, d2⟩ hex' b) m'
      · rw [if_neg hc]
        exact ih m hex' m'

lemma unmapOuter_no_ok (np A R fuel : Nat) :
    ∀ (l : List Nat) (m : Machine), (∃ x ∈ l, 512 ≤ x) →
      ∀ m', unmapOuter np A R fuel m l ≠ .ok m' := by
  intro l
  induction l with
  | nil => intro m h; simp at h
  | cons hd t ih =>
    intro m hex m'
    by_cases hh : 512 ≤ hd
    · simp only [unmapOuter]
      rw [if_pos hh]
      intro hc
      exact Exec.noConfusion hc
    · have hex' : ∃ x ∈ t, 512 ≤ x := by
        obtain ⟨x, hx, hx5⟩ := hex
        rcases List.mem_cons.mp hx with rfl | hxt
        · omega
        · exact ⟨x, hxt, hx5⟩
      simp only [unmapOuter]
      rw [if_neg hh]
      by_cases hc : entry_is_valid (m.mem (R + 8 * hd)) = true
          ∧ ¬ entry_is_leaf (m.mem (R + 8 * hd)) = true
      · rw [if_pos hc]
        refine execBind_no_ok (fun m1 b => ?_) m'
        exact execBind_no_ok (fun d2 b2 => ih ⟨m1.mem, d2⟩ hex' b2) b
      · rw [if_neg hc]
        exact ih m hex' m'

/-- C3 (code bug demonstration): unmap never completes normally, for any
machine state, root address, allocator parameters and fuel.  Its loop
bound is Table::len() = size_of::<Table>() = 4096 rather than the entry
count 512, so after the first 512 root entries the access
root.entries[512] (and, inside any valid branch, the inner
entries[512]) is out of bounds and panics; whatever happens earlier,
no execution path returns. -/
theorem unmap_never_returns (np A R fuel : Nat) (m : Machine) :
    ∀ m', unmap np A R fuel m ≠ Exec.ok m' := by
  apply unmapOuter_no_ok
  exact ⟨512, List.mem_range.mpr (by norm_num [TableLen]), le_rfl⟩

/-! id_map_range (src/lib.rs lines 75-84). -/

/-- The loop of id_map_range: one map call per iteration, identity
mapping memaddr to itself with the given bits at start level 0, then
memaddr += 1 << 12. -/
def idMapLoop (memaddr bits : Nat) : Nat → List (Nat × Nat × Nat × Nat)
  | 0 => []
  | n + 1 => (memaddr, memaddr, bits, 0) :: idMapLoop (memaddr + (1 <<< 12)) bits n

/-- id_map_range from src/lib.rs lines 75-84, recorded as the list of
(vaddr, paddr, bits, level) argument tuples passed to map, in order:
memaddr starts at start & !(PAGE_SIZE - 1) and the loop runs
(align_val(end, 12) - memaddr) / PAGE_SIZE times (wrapping usize
subtraction, as in alloc). -/
def id_map_range (start end_ bits : Nat) : List (Nat × Nat × Nat × Nat) :=
  idMapLoop (start &&& notMask64 (PAGE_SIZE - 1)) bits
    (wsub (align_val end_ 12) (start &&& notMask64 (PAGE_SIZE - 1)) / PAGE_SIZE)

lemma idMapLoop_eq (bits : Nat) :
    ∀ (n a : Nat), idMapLoop a bits n
      = (List.range n).map (fun k => (a + 4096 * k, a + 4096 * k, bits, 0)) := by
  intro n
  induction n with
  | zero => intro a; rfl
  | succ n ih =>
    intro a
    rw [List.range_succ_eq_map, List.map_cons, List.map_map]
    show (a, a, bits, 0) :: idMapLoop (a + (1 <<< 12)) bits n = _
    rw [show (1 <<< 12 : Nat) = 4096 by decide, ih (a + 4096)]
    simp only [Nat.mul_zero, Nat.add_zero, List.cons.injEq, true_and]
    apply List.map_congr_left
    intro k _
    have h1 : a + 4096 + 4096 * k = a + 4096 * (k + 1) := by ring
    simp [Function.comp, h1]

lemma land_notMask64_pow {x k : Nat} (hx : x < 2 ^ 64) (hk : k ≤ 64) :
    x &&& notMask64 (2 ^ k - 1) = 2 ^ k * (x / 2 ^ k) := by
  apply Nat.eq_of_testBit_eq
  intro i
  rw [show 2 ^ k * (x / 2 ^ k) = (x >>> k) <<< k by
    rw [Nat.shiftLeft_eq, Nat.shiftRight_eq_div_pow]; ring]
  rw [Nat.testBit_land, Nat.testBit_shiftLeft]
  unfold notMask64 WSIZE
  rw [Nat.testBit_xor, Nat.testBit_two_pow_sub_one, Nat.testBit_two_pow_sub_one]
  rcases Nat.lt_or_ge i k with hik | hik
  · have h64 : i < 64 := by omega
    simp [hik, h64, Nat.not_le.mpr hik]
  · rcases Nat.lt_or_ge i 64 with h64 | h64
    · have : ¬ i < k := by omega
      rw [Nat.testBit_shiftRight, show k + (i - k) = i by omega]
      simp [h64, this, hik]
    · have hx2 : x.testBit i = false := Nat.testBit_lt_two_pow (by
        calc x < 2 ^ 64 := hx
        _ ≤ 2 ^ i := Nat.pow_le_pow_right (by norm_num) h64)
      rw [Nat.testBit_shiftRight, show k + (i - k) = i by omega]
      simp [hx2, show ¬ i < 64 by omega, show ¬ i < k by omega]

/-- C9: id_map_range rounds start down to a page boundary and end up to a
page boundary and calls map exactly once per 4096-byte page of that span,
with virtual address equal to physical address, the given permission
bits, and start level 0. -/
theorem id_map_range_calls {start end_ bits : Nat}
    (hs : start < 2 ^ 64) (he : end_ + 4095 < 2 ^ 64)
    (hle : start &&& notMask64 (PAGE_SIZE - 1) ≤ align_val end_ 12) :
    id_map_range start end_ bits
        = (List.range ((align_val end_ 12 - 4096 * (start / 4096)) / 4096)).map
            (fun k => (4096 * (start / 4096) + 4096 * k,
                       4096 * (start / 4096) + 4096 * k, bits, 0))
      ∧ start &&& notMask64 (PAGE_SIZE - 1) = 4096 * (start / 4096)
      ∧ align_val end_ 12 = 4096 * ((end_ + 4095) / 4096) := by
  have hD : start &&& notMask64 (PAGE_SIZE - 1) = 4096 * (start / 4096) := by
    rw [show PAGE_SIZE - 1 = 2 ^ 12 - 1 by decide]
    rw [land_notMask64_pow (k := 12) hs (by norm_num)]
    norm_num
  have hU : align_val end_ 12 = 4096 * ((end_ + 4095) / 4096) := by
    unfold align_val
    rw [show ((1 <<< 12 : Nat) - 1) = 2 ^ 12 - 1 by decide]
    rw [land_notMask64_pow (x := end_ + (2 ^ 12 - 1)) (k := 12) (by omega) (by norm_num)]
    norm_num
  have hUlt : align_val end_ 12 < 2 ^ 64 := by
    have h1 : align_val end_ 12 ≤ end_ + ((1 <<< 12) - 1) := Nat.and_le_left
    have h2 : (1 <<< 12 : Nat) = 4096 := by decide
    omega
  refine ⟨?_, hD, hU⟩
  unfold id_map_range
  rw [hD, wsub_eq_sub (hD ▸ hle) hUlt, show PAGE_SIZE = 4096 by decide,
    idMapLoop_eq]

/-- Witness for id_map_range_calls: start = 0x1234, end = 0x3456 gives the
three pages 0x1000, 0x2000, 0x3000. -/
theorem id_map_range_calls_witness :
    (0x1234 : Nat) < 2 ^ 64 ∧ (0x3456 : Nat) + 4095 < 2 ^ 64 ∧
      (0x1234 &&& notMask64 (PAGE_SIZE - 1) ≤ align_val 0x3456 12) ∧
      (id_map_range 0x1234 0x3456 6
          = (List.range ((align_val 0x3456 12 - 4096 * (0x1234 / 4096)) / 4096)).map
              (fun k => (4096 * (0x1234 / 4096) + 4096 * k,
                         4096 * (0x1234 / 4096) + 4096 * k, 6, 0))
        ∧ 0x1234 &&& notMask64 (PAGE_SIZE - 1) = 4096 * (0x1234 / 4096)
        ∧ align_val 0x3456 12 = 4096 * ((0x3456 + 4095) / 4096)) :=
  ⟨by decide, by decide, by decide,
    id_map_range_calls (by decide) (by decide) (by decide)⟩

/-! map and virt_to_phys (src/page.rs lines 316-432).  The page tables
live in RAM: entry slot j of a table at byte address T is the 64-bit word
at T + 8*j. -/

/-- The vpn array of map/virt_to_phys (src/page.rs lines 321-329 and
402-409): vpn[i] = (vaddr >> (12 + 9*i)) & 0x1ff, i.e. shifts 12, 21, 30
for i = 0, 1, 2. -/
def vpnAt (vaddr i : Nat) : Nat := (vaddr >>> (12 + 9 * i)) &&& 0x1ff

/-- The branch entry installed by map for a fresh child table page
(src/page.rs lines 349-352): (page as i64 >> 2) | Valid. -/
def branchVal (page : Nat) : Nat := (page >>> 2) ||| 1

/-- The leaf entry written by map (src/page.rs lines 365-369):
(ppn[2] << 28) | (ppn[1] << 19) | (ppn[0] << 10) | bits | Valid, with
ppn[0] = (paddr >> 12) & 0x1ff, ppn[1] = (paddr >> 21) & 0x1ff,
ppn[2] = (paddr >> 30) & 0x3ff_ffff (lines 332-339). -/
def leafVal (paddr bits : Nat) : Nat :=
  ((((paddr >>> 30) &&& 0x3ffffff) <<< 28)
    ||| (((paddr >>> 21) &&& 0x1ff) <<< 19)
    ||| (((paddr >>> 12) &&& 0x1ff) <<< 10))
    ||| bits ||| 1

/-- Store a 64-bit word at a byte address (Entry::set_entry through a
pointer into a table). -/
def writeMem (mem : Nat → Nat) (a v : Nat) : Nat → Nat :=
  fun x => if x = a then v else mem x

/-- One iteration of the descent loop of map (src/page.rs lines 343-360)
at the entry whose byte address is vAddr.  If the entry is invalid, a
fresh page from zalloc(1) is installed as a branch (a null return from an
exhausted allocator is address 0 and is not checked by map); the walk
then descends to slot vpnNext of the child table (entry & !0x3ff) << 2. -/
def mapLoopStep (np A : Nat) (m : Machine) (vAddr vpnNext : Nat) : Machine × Nat :=
  if entry_is_valid (m.mem vAddr) then
    (m, childAddr (m.mem vAddr) + 8 * vpnNext)
  else
    let z := zalloc m np A 1
    let newE := branchVal (z.1.getD 0)
    (⟨writeMem z.2.mem vAddr newE, z.2.descs⟩, childAddr newE + 8 * vpnNext)

/-- The loop indices of for i in (level..2).rev(). -/
def revRange (level : Nat) : List Nat := (List.range' level (2 - level)).reverse

/-- The descent loop of map over its loop indices, carrying the machine
and the byte address of the current entry v. -/
def mapLoop (np A vaddr : Nat) : Machine → Nat → List Nat → Machine × Nat
  | m, vAddr, [] => (m, vAddr)
  | m, vAddr, i :: rest =>
    mapLoop np A vaddr (mapLoopStep np A m vAddr (vpnAt vaddr i)).1
      (mapLoopStep np A m vAddr (vpnAt vaddr i)).2 rest

/-- map from src/page.rs lines 316-373, for a root table at byte address
rootAddr.  none models the fatal assert!(bits & 0xe != 0); otherwise the
descent starts at root entry vpn[2] and the reached slot is overwritten
with the leaf entry. -/
def map (np A : Nat) (m : Machine) (rootAddr vaddr paddr bits level : Nat) :
    Option Machine :=
  if bits &&& 0xe = 0 then none
  else
    some ⟨writeMem (mapLoop np A vaddr m (rootAddr + 8 * vpnAt vaddr 2) (revRange level)).1.mem
            (mapLoop np A vaddr m (rootAddr + 8 * vpnAt vaddr 2) (revRange level)).2
            (leafVal paddr bits),
          (mapLoop np A vaddr m (rootAddr + 8 * vpnAt vaddr 2) (revRange level)).1.descs⟩

/-- The walk of virt_to_phys (src/page.rs lines 412-429) over the loop
indices i = 2, 1, 0, carrying the byte address of the current entry.  An
invalid entry breaks out and the function returns None (ok none); a leaf
at level i returns the PPN of the entry combined with the low
(12 + i*9) offset bits of vaddr; a valid branch at i = 0 evaluates
vpn[i - 1] whose usize index underflows: a panic. -/
def v2pLoop (mem : Nat → Nat) (vaddr : Nat) : Nat → List Nat → Exec (Option Nat)
  | _, [] => .ok none
  | vAddr, i :: rest =>
    if ¬ entry_is_valid (mem vAddr) then .ok none
    else if entry_is_leaf (mem vAddr) then
      .ok (some ((((mem vAddr <<< 2) % WSIZE) &&& notMask64 ((1 <<< (12 + i * 9)) - 1))
        ||| (vaddr &&& ((1 <<< (12 + i * 9)) - 1))))
    else
      match i with
      | 0 => .panic
      | j + 1 => v2pLoop mem vaddr (childAddr (mem vAddr) + 8 * vpnAt vaddr j) rest

/-- virt_to_phys from src/page.rs lines 400-432. -/
def virt_to_phys (mem : Nat → Nat) (rootAddr vaddr : Nat) : Exec (Option Nat) :=
  v2pLoop mem vaddr (rootAddr + 8 * vpnAt vaddr 2) [2, 1, 0]

/-- A sequence of map calls (vaddr, paddr, bits), each at start level 0,
on the same root table; none as soon as one call hits the fatal assert. -/
def mapMany (np A R : Nat) : Machine → List (Nat × Nat × Nat) → Option Machine
  | m, [] => some m
  | m, c :: rest =>
    match map np A m R c.1 c.2.1 c.2.2 0 with
    | some m2 => mapMany np A R m2 rest
    | none => none

/-- C1 (counterexample): the claim quantifies over every physical address,
but for the unaligned paddr 0x80000001 the mapping map(root, 0x1000,
0x80000001, ReadWrite, 0) on a fresh root (all-zero RAM, 8-frame
allocator, root table at 0x1000, ALLOC_START 0x2000) translates back to
Some 0x80000000, not Some (0x80000001 ||| (0x1000 &&& 0xfff)) =
Some 0x80000001: the low 12 bits of paddr are discarded by the PPN
encoding. -/
theorem map_unaligned_paddr_counterexample :
    (map 8 0x2000 ⟨fun _ => 0, fun _ => 0⟩ 0x1000 0x1000 0x80000001 6 0).map
        (fun m2 => virt_to_phys m2.mem 0x1000 0x1000)
      = some (.ok (some 0x80000000))
    ∧ (0x80000001 : Nat) ||| (0x1000 &&& 0xfff) = 0x80000001
    ∧ (0x80000000 : Nat) ≠ 0x80000001 := by decide

/-- C7 (counterexample): the virtual address 0x1001 is never passed to
map, yet after map(root, 0x1000, 0x80000000, ReadWrite, 0) on a fresh
root the walk virt_to_phys(root, 0x1001) returns Some 0x80000001 -- not
None -- because 0x1001 lies in the same mapped page as 0x1000. -/
theorem virt_to_phys_same_page_counterexample :
    (mapMany 8 0x2000 0x1000 ⟨fun _ => 0, fun _ => 0⟩ [(0x1000, 0x80000000, 6)]).map
        (fun m2 => virt_to_phys m2.mem 0x1000 0x1001)
      = some (.ok (some 0x80000001))
    ∧ (0x1001 : Nat) ≠ 0x1000 := by decide

/-! Machinery for reasoning about the page-table trees that map builds:
a ghost record of which frames hold which tables, and an invariant tying
it to the machine state.  M is the list of (vaddr, paddr, bits) calls
made so far. -/

/-- A call to map: (vaddr, paddr, bits). -/
abbrev MapCall := Nat × Nat × Nat

/-- Some call in M maps a virtual address with top-level VPN x. -/
def act2 (M : List MapCall) (x : Nat) : Bool :=
  M.any fun c => vpnAt c.1 2 == x

/-- Some call in M maps a virtual address with VPN path (x, y) at levels
2 and 1. -/
def act21 (M : List MapCall) (x y : Nat) : Bool :=
  M.any fun c => vpnAt c.1 2 == x && vpnAt c.1 1 == y

/-- The last call of M whose virtual address has VPN path (x, y, z);
its leaf is the one currently stored (later maps overwrite earlier
ones). -/
def lastLeaf (M : List MapCall) (x y z : Nat) : Option MapCall :=
  (M.filter fun c =>
    vpnAt c.1 2 == x && vpnAt c.1 1 == y && vpnAt c.1 0 == z).getLast?

/-- Ghost data for the table tree: k frames allocated so far, l1 x the
frame index of the level-1 table for root slot x, l0 x y the frame index
of the level-0 table for path (x, y). -/
structure Tree where
  k : Nat
  l1 : Nat → Nat
  l0 : Nat → Nat → Nat

/-- Descriptor table after k single-page allocations from a fresh heap:
frames 0..k-1 are Taken|Last (3), the rest Empty. -/
def stepDescs (k : Nat) : Nat → Nat := fun i => if i < k then 3 else 0

/-- Byte address of allocator frame j. -/
def pageAddr (A j : Nat) : Nat := A + 4096 * j

/-- Geometry side conditions: ALLOC_START is page aligned, the root table
page [R, R+4096) lies below the allocation area, and the allocation area
fits in the 64-bit address space. -/
structure SideCond (np A R : Nat) : Prop where
  hal : 4096 ∣ A
  hra : R + 4096 ≤ A
  hsz : A + 4096 * np ≤ 2 ^ 64

/-- The invariant relating machine state, call history M and ghost tree t:
descriptors form the staircase stepDescs t.k; active tables sit in
distinct frames below t.k; root, level-1 and level-0 slots hold exactly
the branch/leaf entries that the calls in M have installed; and every
other RAM word is zero. -/
structure InvT (np A R : Nat) (m : Machine) (M : List MapCall) (t : Tree) : Prop where
  kle : t.k ≤ 2 * M.length
  descs_eq : m.descs = stepDescs t.k
  l1_lt : ∀ x, act2 M x = true → t.l1 x < t.k
  l0_lt : ∀ x y, act21 M x y = true → t.l0 x y < t.k
  l1_inj : ∀ x x', act2 M x = true → act2 M x' = true → t.l1 x = t.l1 x' → x = x'
  l0_inj : ∀ x y x' y', act21 M x y = true → act21 M x' y' = true →
    t.l0 x y = t.l0 x' y' → x = x' ∧ y = y'
  l1_l0 : ∀ x x' y', act2 M x = true → act21 M x' y' = true → t.l1 x ≠ t.l0 x' y'
  root_slot : ∀ x, x < 512 →
    m.mem (R + 8 * x) = if act2 M x then branchVal (pageAddr A (t.l1 x)) else 0
  l1_slot : ∀ x y, act2 M x = true → y < 512 →
    m.mem (pageAddr A (t.l1 x) + 8 * y)
      = if act21 M x y then branchVal (pageAddr A (t.l0 x y)) else 0
  l0_slot : ∀ x y z, act21 M x y = true → z < 512 →
    m.mem (pageAddr A (t.l0 x y) + 8 * z)
      = match lastLeaf M x y z with
        | some c => leafVal c.2.1 c.2.2
        | none => 0
  zero_elsewhere : ∀ a, m.mem a ≠ 0 →
    (∃ x, x < 512 ∧ act2 M x = true ∧ a = R + 8 * x) ∨
    (∃ x y, act2 M x = true ∧ y < 512 ∧ a = pageAddr A (t.l1 x) + 8 * y) ∨
    (∃ x y z, act21 M x y = true ∧ z < 512 ∧ a = pageAddr A (t.l0 x y) + 8 * z)

lemma vpnAt_lt (v i : Nat) : vpnAt v i < 512 := by
  unfold vpnAt
  have := Nat.and_le_right (n := v >>> (12 + 9 * i)) (m := 0x1ff)
  omega

lemma act2_append (M : List MapCall) (c : MapCall) (x : Nat) :
    act2 (M ++ [c]) x = (act2 M x || (vpnAt c.1 2 == x)) := by
  unfold act2
  rw [List.any_append]
  simp

lemma act21_append (M : List MapCall) (c : MapCall) (x y : Nat) :
    act21 (M ++ [c]) x y
      = (act21 M x y || (vpnAt c.1 2 == x && vpnAt c.1 1 == y)) := by
  unfold act21
  rw [List.any_append]
  simp

lemma act2_of_act21 {M : List MapCall} {x y : Nat} (h : act21 M x y = true) :
    act2 M x = true := by
  unfold act2 act21 at *
  rw [List.any_eq_true] at *
  obtain ⟨c, hc, hp⟩ := h
  simp only [Bool.and_eq_true, beq_iff_eq] at hp
  exact ⟨c, hc, by simp [hp.1]⟩

lemma lastLeaf_append_self (M : List MapCall) (va pa bits : Nat) :
    lastLeaf (M ++ [(va, pa, bits)]) (vpnAt va 2) (vpnAt va 1) (vpnAt va 0)
      = some (va, pa, bits) := by
  unfold lastLeaf
  rw [List.filter_append]
  have : List.filter (fun c =>
      vpnAt c.1 2 == vpnAt va 2 && vpnAt c.1 1 == vpnAt va 1
        && vpnAt c.1 0 == vpnAt va 0) [(va, pa, bits)] = [(va, pa, bits)] := by
    simp
  rw [this, List.getLast?_concat]

lemma lastLeaf_append_ne {M : List MapCall} {c : MapCall} {x y z : Nat}
    (h : ¬ (vpnAt c.1 2 = x ∧ vpnAt c.1 1 = y ∧ vpnAt c.1 0 = z)) :
    lastLeaf (M ++ [c]) x y z = lastLeaf M x y z := by
  unfold lastLeaf
  rw [List.filter_append]
  have hb : (vpnAt c.1 2 == x && vpnAt c.1 1 == y && vpnAt c.1 0 == z) = false := by
    rw [Bool.eq_false_iff]
    intro hc
    simp only [Bool.and_eq_true, beq_iff_eq] at hc
    exact h ⟨hc.1.1, hc.1.2, hc.2⟩
  have : List.filter (fun c =>
      vpnAt c.1 2 == x && vpnAt c.1 1 == y && vpnAt c.1 0 == z) [c] = [] := by
    simp only [List.filter, hb]
  rw [this, List.append_nil]

lemma lastLeaf_mem {M : List MapCall} {x y z : Nat} {c : MapCall}
    (h : lastLeaf M x y z = some c) :
    c ∈ M ∧ vpnAt c.1 2 = x ∧ vpnAt c.1 1 = y ∧ vpnAt c.1 0 = z := by
  unfold lastLeaf at h
  have hc := List.mem_of_mem_getLast? h
  rw [List.mem_filter] at hc
  obtain ⟨h1, h2⟩ := hc
  simp only [Bool.and_eq_true, beq_iff_eq] at h2
  exact ⟨h1, h2.1.1, h2.1.2, h2.2⟩

lemma act21_of_lastLeaf {M : List MapCall} {x y z : Nat} {c : MapCall}
    (h : lastLeaf M x y z = some c) : act21 M x y = true := by
  obtain ⟨hmem, h2, h1, -⟩ := lastLeaf_mem h
  unfold act21
  rw [List.any_eq_true]
  exact ⟨c, hmem, by simp [h2, h1]⟩

lemma lastLeaf_none_of_not_act21 {M : List MapCall} {x y z : Nat}
    (h : act21 M x y = false) : lastLeaf M x y z = none := by
  cases hll : lastLeaf M x y z with
  | none => rfl
  | some c =>
    rw [act21_of_lastLeaf hll] at h
    exact absurd h (by decide)

/-! Address-arithmetic disjointness of slot addresses. -/

lemma root_ne_page {A R x j y : Nat} (hx : x < 512) (hra : R + 4096 ≤ A) :
    R + 8 * x ≠ pageAddr A j + 8 * y := by
  unfold pageAddr
  omega

lemma page_slot_ne_of_page_ne {A j j' y y' : Nat} (hy : y < 512) (hy' : y' < 512)
    (hj : j ≠ j') : pageAddr A j + 8 * y ≠ pageAddr A j' + 8 * y' := by
  unfold pageAddr
  rcases Nat.lt_or_ge j j' with h | h
  · have : 4096 * j + 4096 ≤ 4096 * j' := by omega
    omega
  · have hj' : j' < j := by omega
    have : 4096 * j' + 4096 ≤ 4096 * j := by omega
    omega

lemma page_slot_ne_same_page {A j y y' : Nat} (hne : y ≠ y') :
    pageAddr A j + 8 * y ≠ pageAddr A j + 8 * y' := by
  unfold pageAddr
  omega

/-! Bit-level facts about branch and leaf entries. -/

lemma testBit_dvd_low {p n i : Nat} (h : 2 ^ n ∣ p) (hi : i < n) :
    p.testBit i = false := by
  obtain ⟨q, rfl⟩ := h
  rw [show 2 ^ n * q = q <<< n by rw [Nat.shiftLeft_eq]; ring]
  rw [Nat.testBit_shiftLeft]
  simp [show ¬ i ≥ n by omega]

lemma testBit_high {p i n : Nat} (hp : p < 2 ^ n) (hi : n ≤ i) : p.testBit i = false :=
  Nat.testBit_lt_two_pow
    (lt_of_lt_of_le hp (Nat.pow_le_pow_right (by norm_num) hi))

lemma branchVal_valid (p : Nat) : entry_is_valid (branchVal p) = true := by
  unfold entry_is_valid branchVal
  rw [land_one_or_one]
  decide

lemma branchVal_not_leaf {p : Nat} (hp : 4096 ∣ p) :
    entry_is_leaf (branchVal p) = false := by
  unfold entry_is_leaf branchVal
  suffices h : ((p >>> 2) ||| 1) &&& 0xe = 0 by rw [h]; decide
  apply Nat.eq_of_testBit_eq
  intro i
  rw [show (0xe : Nat) = (2 ^ 3 - 1) <<< 1 by decide]
  simp only [Nat.testBit_land, Nat.testBit_lor, Nat.testBit_shiftRight, Nat.zero_testBit,
    Nat.testBit_shiftLeft, Nat.testBit_two_pow_sub_one]
  by_cases h0 : i = 0
  · subst h0; simp
  by_cases h4 : 4 ≤ i
  · simp [show ¬ (i - 1 < 3) by omega]
  · have hp' : p.testBit (2 + i) = false :=
      testBit_dvd_low (by rwa [show (2 : Nat) ^ 12 = 4096 by norm_num]) (by omega)
    obtain ⟨j, rfl⟩ : ∃ j, i = j + 1 := ⟨i - 1, by omega⟩
    simp [hp', testBit_one_succ]

lemma childAddr_branchVal {p : Nat} (hp : 4096 ∣ p) (hlt : p < 2 ^ 64) :
    childAddr (branchVal p) = p := by
  unfold childAddr branchVal notMask64 WSIZE
  apply Nat.eq_of_testBit_eq
  intro i
  rw [Nat.testBit_mod_two_pow, Nat.testBit_shiftLeft, Nat.testBit_land, Nat.testBit_lor,
    Nat.testBit_shiftRight, Nat.testBit_xor,
    show (0x3ff : Nat) = 2 ^ 10 - 1 by norm_num, Nat.testBit_two_pow_sub_one,
    Nat.testBit_two_pow_sub_one]
  by_cases h64 : i < 64
  · by_cases h12 : i < 12
    · have hpi : p.testBit i = false :=
        testBit_dvd_low (by rwa [show (2 : Nat) ^ 12 = 4096 by norm_num]) h12
      rw [hpi]
      by_cases h2 : 2 ≤ i
      · have hpj : p.testBit (2 + (i - 2)) = false := by
          rw [show 2 + (i - 2) = i by omega]
          exact hpi
        rw [hpj]
        simp [show i - 2 < 10 by omega, show i - 2 < 64 by omega]
      · simp [show ¬ i ≥ 2 by omega]
    · have hj1 : Nat.testBit 1 (i - 2) = false := by
        obtain ⟨j, hj⟩ : ∃ j, i - 2 = j + 1 := ⟨i - 3, by omega⟩
        rw [hj, testBit_one_succ]
      rw [hj1, show 2 + (i - 2) = i by omega]
      simp [h64, show i ≥ 2 by omega, show ¬ i - 2 < 10 by omega,
        show i - 2 < 64 by omega]
  · rw [show p.testBit i = false from testBit_high hlt (by omega)]
    simp [h64]

lemma leafVal_valid (pa bits : Nat) : entry_is_valid (leafVal pa bits) = true := by
  unfold entry_is_valid leafVal
  rw [land_one_or_one]
  decide

lemma leafVal_land_e (pa bits : Nat) : leafVal pa bits &&& 0xe = bits &&& 0xe := by
  unfold leafVal
  apply Nat.eq_of_testBit_eq
  intro i
  rw [show (0xe : Nat) = (2 ^ 3 - 1) <<< 1 by decide]
  simp only [Nat.testBit_land, Nat.testBit_lor, Nat.testBit_shiftLeft,
    Nat.testBit_two_pow_sub_one]
  by_cases h0 : i = 0
  · subst h0; simp
  by_cases h4 : 4 ≤ i
  · simp [show ¬ (i - 1 < 3) by omega]
  · obtain ⟨j, rfl⟩ : ∃ j, i = j + 1 := ⟨i - 1, by omega⟩
    simp [testBit_one_succ, show ¬ j + 1 ≥ 28 by omega, show ¬ j + 1 ≥ 19 by omega,
      show ¬ j + 1 ≥ 10 by omega]

lemma leafVal_is_leaf {pa bits : Nat} (hb : bits &&& 0xe ≠ 0) :
    entry_is_leaf (leafVal pa bits) = true := by
  unfold entry_is_leaf
  rw [leafVal_land_e]
  simpa using hb

lemma leafVal_decode {pa bits : Nat} (hpa : 4096 ∣ pa) (hlt : pa < 2 ^ 56)
    (hb : bits < 1024) :
    ((leafVal pa bits <<< 2) % WSIZE) &&& notMask64 ((1 <<< 12) - 1) = pa := by
  unfold leafVal notMask64 WSIZE
  rw [show ((1 <<< 12 : Nat) - 1) = 2 ^ 12 - 1 by decide,
    show (0x3ffffff : Nat) = 2 ^ 26 - 1 by norm_num,
    show (0x1ff : Nat) = 2 ^ 9 - 1 by norm_num]
  apply Nat.eq_of_testBit_eq
  intro i
  simp only [Nat.testBit_land, Nat.testBit_mod_two_pow, Nat.testBit_shiftLeft,
    Nat.testBit_xor, Nat.testBit_two_pow_sub_one, Nat.testBit_lor,
    Nat.testBit_shiftRight]
  by_cases h64 : i < 64
  · by_cases h12 : i < 12
    · have hpi : pa.testBit i = false :=
        testBit_dvd_low (by rwa [show (2 : Nat) ^ 12 = 4096 by norm_num]) h12
      simp [h64, h12, hpi]
    · have hj2 : 2 ≤ i := by omega
      have hbits : bits.testBit (i - 2) = false :=
        testBit_high (by omega : bits < 2 ^ 10) (by omega)
      have hone : Nat.testBit 1 (i - 2) = false := by
        obtain ⟨j, hj⟩ : ∃ j, i - 2 = j + 1 := ⟨i - 3, by omega⟩
        rw [hj, testBit_one_succ]
      rw [hbits, hone]
      by_cases hA : i < 21
      · rw [show 12 + (i - 2 - 10) = i by omega]
        simp [show i - 2 ≥ 10 by omega, show ¬ i - 2 ≥ 19 by omega,
          show ¬ i - 2 ≥ 28 by omega, show i - 2 - 10 < 9 by omega,
          h64, show ¬ i < 12 by omega, show i ≥ 2 by omega]
      · by_cases hB : i < 30
        · rw [show 21 + (i - 2 - 19) = i by omega]
          simp [show i - 2 ≥ 10 by omega, show i - 2 ≥ 19 by omega,
            show ¬ i - 2 ≥ 28 by omega, show ¬ i - 2 - 10 < 9 by omega,
            show i - 2 - 19 < 9 by omega,
            h64, show ¬ i < 12 by omega, show i ≥ 2 by omega]
        · by_cases hC : i < 56
          · rw [show 30 + (i - 2 - 28) = i by omega]
            simp [show i - 2 ≥ 10 by omega, show i - 2 ≥ 19 by omega,
              show i - 2 ≥ 28 by omega, show ¬ i - 2 - 10 < 9 by omega,
              show ¬ i - 2 - 19 < 9 by omega, show i - 2 - 28 < 26 by omega,
              h64, show ¬ i < 12 by omega, show i ≥ 2 by omega]
          · have hpi : pa.testBit i = false := testBit_high hlt (by omega)
            have hpa1 : pa.testBit (30 + (i - 2 - 28)) = false := by
              rw [show 30 + (i - 2 - 28) = i by omega]
              exact hpi
            rw [hpi, hpa1]
            simp [show ¬ i - 2 - 10 < 9 by omega, show ¬ i - 2 - 19 < 9 by omega]
  · have hpi : pa.testBit i = false := testBit_high hlt (by omega)
    simp [h64, hpi]

/-! Behaviour of zalloc(1) on the staircase descriptor table, and of one
step of the map descent. -/

lemma isFreeRun_one (d : Nat → Nat) (s : Nat) : isFreeRun d s 1 = !(isTaken (d s)) := by
  unfold isFreeRun
  rw [show List.range 1 = [0] from rfl]
  simp

lemma findRun_stepDescs {k : Nat} :
    ∀ {fuel s : Nat}, s ≤ k → k < s + fuel → findRun (stepDescs k) 1 s fuel = some k := by
  intro fuel
  induction fuel with
  | zero => intro s h1 h2; omega
  | succ f ih =>
    intro s h1 h2
    unfold findRun
    by_cases hsk : s = k
    · subst hsk
      rw [if_pos (by
        rw [isFreeRun_one]
        simp [stepDescs, isTaken])]
    · rw [if_neg (by
        rw [isFreeRun_one]
        simp only [stepDescs]
        rw [if_pos (by omega)]
        decide)]
      exact ih (by omega) (by omega)

lemma allocMark_stepDescs (k : Nat) : allocMark (stepDescs k) k 1 = stepDescs (k + 1) := by
  funext i
  unfold allocMark stepDescs
  by_cases h1 : i < k
  · rw [if_neg (by omega), if_neg (by omega), if_pos h1, if_pos (by omega)]
  · by_cases h2 : i = k
    · subst h2
      rw [if_neg (by omega), if_pos (by omega), if_neg (by omega), if_pos (by omega)]
      decide
    · rw [if_neg (by omega), if_neg (by omega), if_neg (by omega), if_neg (by omega)]

lemma alloc_one_stepDescs {k np A : Nat} (hk : k + 1 < np) (hnp : np < 2 ^ 64) :
    alloc (stepDescs k) np A 1 = (some (A + 4096 * k), stepDescs (k + 1)) := by
  have hf : findRun (stepDescs k) 1 0 (wsub np 1) = some k := by
    rw [wsub_eq_sub (by omega) hnp]
    exact findRun_stepDescs (by omega) (by omega)
  rw [alloc_of_findRun_some hf, allocMark_stepDescs]

lemma mapLoopStep_valid {np A : Nat} {m : Machine} {vAddr nxt e : Nat}
    (he : m.mem vAddr = e) (hv : entry_is_valid e = true) :
    mapLoopStep np A m vAddr nxt = (m, childAddr e + 8 * nxt) := by
  unfold mapLoopStep
  rw [he, if_pos hv]

lemma mapLoopStep_invalid {np A k : Nat} {m : Machine} {vAddr nxt : Nat}
    (he : m.mem vAddr = 0) (hd : m.descs = stepDescs k)
    (hk : k + 1 < np) (hnp : np < 2 ^ 64) :
    mapLoopStep np A m vAddr nxt
      = (⟨writeMem m.mem vAddr (branchVal (pageAddr A k)), stepDescs (k + 1)⟩,
         childAddr (branchVal (pageAddr A k)) + 8 * nxt) := by
  unfold mapLoopStep zalloc
  rw [he, if_neg (by decide), hd, alloc_one_stepDescs hk hnp]
  rfl

lemma mapLoop_cons (np A vaddr : Nat) (m : Machine) (vAddr i : Nat) (rest : List Nat) :
    mapLoop np A vaddr m vAddr (i :: rest)
      = mapLoop np A vaddr (mapLoopStep np A m vAddr (vpnAt vaddr i)).1
          (mapLoopStep np A m vAddr (vpnAt vaddr i)).2 rest := rfl

lemma map_eval {np A : Nat} {m : Machine} {R va pa bits : Nat}
    (hb : ¬ bits &&& 0xe = 0) :
    map np A m R va pa bits 0
      = some ⟨writeMem (mapLoop np A va m (R + 8 * vpnAt va 2) [1, 0]).1.mem
                (mapLoop np A va m (R + 8 * vpnAt va 2) [1, 0]).2 (leafVal pa bits),
              (mapLoop np A va m (R + 8 * vpnAt va 2) [1, 0]).1.descs⟩ := by
  unfold map
  rw [if_neg hb, show revRange 0 = [1, 0] from rfl]

lemma writeMem_eq (mem : Nat → Nat) (a v : Nat) : writeMem mem a v a = v := by
  unfold writeMem
  rw [if_pos rfl]

lemma writeMem_ne {x a : Nat} (mem : Nat → Nat) (v : Nat) (h : x ≠ a) :
    writeMem mem a v x = mem x := by
  unfold writeMem
  rw [if_neg h]

/-- Preservation of the invariant by one map call whose VPN path (levels
2 and 1) is already present: the walk follows two existing branches and
overwrites only the leaf slot. -/
lemma map_step_inv_present {np A R : Nat} {m : Machine} {M : List MapCall} {t : Tree}
    (sc : SideCond np A R) (inv : InvT np A R m M t)
    {va pa bits : Nat} (hbits : ¬ bits &&& 0xe = 0)
    (hroom : 2 * M.length + 3 ≤ np)
    (hact : act21 M (vpnAt va 2) (vpnAt va 1) = true) :
    ∃ m2, map np A m R va pa bits 0 = some m2 ∧
      InvT np A R m2 (M ++ [(va, pa, bits)]) t := by
  have hx2 : act2 M (vpnAt va 2) = true := act2_of_act21 hact
  have hknp : t.k ≤ np := by have := inv.kle; omega
  have hP1dvd : 4096 ∣ pageAddr A (t.l1 (vpnAt va 2)) :=
    dvd_add sc.hal (dvd_mul_right 4096 _)
  have hP1lt : pageAddr A (t.l1 (vpnAt va 2)) < 2 ^ 64 := by
    have h1 : t.l1 (vpnAt va 2) < t.k := inv.l1_lt _ hx2
    have h2 : 4096 * t.l1 (vpnAt va 2) + 4096 ≤ 4096 * np := by omega
    have := sc.hsz
    unfold pageAddr
    omega
  have hP0dvd : 4096 ∣ pageAddr A (t.l0 (vpnAt va 2) (vpnAt va 1)) :=
    dvd_add sc.hal (dvd_mul_right 4096 _)
  have hP0lt : pageAddr A (t.l0 (vpnAt va 2) (vpnAt va 1)) < 2 ^ 64 := by
    have h1 : t.l0 (vpnAt va 2) (vpnAt va 1) < t.k := inv.l0_lt _ _ hact
    have h2 : 4096 * t.l0 (vpnAt va 2) (vpnAt va 1) + 4096 ≤ 4096 * np := by omega
    have := sc.hsz
    unfold pageAddr
    omega
  have hroot := inv.root_slot (vpnAt va 2) (vpnAt_lt va 2)
  rw [if_pos hx2] at hroot
  have hl1 := inv.l1_slot (vpnAt va 2) (vpnAt va 1) hx2 (vpnAt_lt va 1)
  rw [if_pos hact] at hl1
  have hs1 : mapLoopStep np A m (R + 8 * vpnAt va 2) (vpnAt va 1)
      = (m, pageAddr A (t.l1 (vpnAt va 2)) + 8 * vpnAt va 1) := by
    rw [mapLoopStep_valid hroot (branchVal_valid _), childAddr_branchVal hP1dvd hP1lt]
  have hs2 : mapLoopStep np A m
      (pageAddr A (t.l1 (vpnAt va 2)) + 8 * vpnAt va 1) (vpnAt va 0)
      = (m, pageAddr A (t.l0 (vpnAt va 2) (vpnAt va 1)) + 8 * vpnAt va 0) := by
    rw [mapLoopStep_valid hl1 (branchVal_valid _), childAddr_branchVal hP0dvd hP0lt]
  have hloop : mapLoop np A va m (R + 8 * vpnAt va 2) [1, 0]
      = (m, pageAddr A (t.l0 (vpnAt va 2) (vpnAt va 1)) + 8 * vpnAt va 0) := by
    rw [mapLoop_cons, hs1]
    dsimp only
    rw [mapLoop_cons, hs2]
    rfl
  have hact2E : ∀ x', act2 (M ++ [(va, pa, bits)]) x' = act2 M x' := by
    intro x'
    rw [act2_append]
    by_cases h : vpnAt va 2 = x'
    · subst h; simp [hx2]
    · simp [h]
  have hact21E : ∀ x' y', act21 (M ++ [(va, pa, bits)]) x' y' = act21 M x' y' := by
    intro x' y'
    rw [act21_append]
    by_cases h1 : vpnAt va 2 = x'
    · by_cases h2 : vpnAt va 1 = y'
      · subst h1; subst h2; simp [hact]
      · simp [h2]
    · simp [h1]
  refine ⟨_, by rw [map_eval hbits, hloop], ?_⟩
  constructor
  · have := inv.kle
    simp only [List.length_append, List.length_cons, List.length_nil]
    omega
  · exact inv.descs_eq
  · intro x' h
    exact inv.l1_lt x' (by rwa [hact2E] at h)
  · intro x' y' h
    exact inv.l0_lt x' y' (by rwa [hact21E] at h)
  · intro x' xb h1 h2 h3
    exact inv.l1_inj x' xb (by rwa [hact2E] at h1) (by rwa [hact2E] at h2) h3
  · intro x' y' xb yb h1 h2 h3
    exact inv.l0_inj x' y' xb yb (by rwa [hact21E] at h1) (by rwa [hact21E] at h2) h3
  · intro x' xb yb h1 h2
    exact inv.l1_l0 x' xb yb (by rwa [hact2E] at h1) (by rwa [hact21E] at h2)
  · -- root_slot
    intro x' hx'
    show writeMem m.mem _ _ _ = _
    rw [writeMem_ne _ _ (root_ne_page hx' sc.hra), hact2E]
    exact inv.root_slot x' hx'
  · -- l1_slot
    intro x' y' hx' hy'
    rw [hact2E] at hx'
    show writeMem m.mem _ _ _ = _
    rw [writeMem_ne _ _ (page_slot_ne_of_page_ne hy' (vpnAt_lt va 0)
      (inv.l1_l0 x' (vpnAt va 2) (vpnAt va 1) hx' hact)), hact21E]
    exact inv.l1_slot x' y' hx' hy'
  · -- l0_slot
    intro x' y' z' hxy' hz'
    rw [hact21E] at hxy'
    show writeMem m.mem _ _ _ = _
    by_cases hsame : x' = vpnAt va 2 ∧ y' = vpnAt va 1
    · obtain ⟨rfl, rfl⟩ : x' = vpnAt va 2 ∧ y' = vpnAt va 1 := hsame
      by_cases hz : z' = vpnAt va 0
      · subst hz
        rw [writeMem_eq, lastLeaf_append_self]
      · rw [writeMem_ne _ _ (page_slot_ne_same_page hz),
          lastLeaf_append_ne (by
            intro hc
            exact hz hc.2.2.symm)]
        exact inv.l0_slot _ _ z' hxy' hz'
    · have hpage : t.l0 x' y' ≠ t.l0 (vpnAt va 2) (vpnAt va 1) := by
        intro he
        exact hsame (inv.l0_inj x' y' _ _ hxy' hact he)
      rw [writeMem_ne _ _ (page_slot_ne_of_page_ne hz' (vpnAt_lt va 0) hpage),
        lastLeaf_append_ne (by
          intro hc
          exact hsame ⟨hc.1.symm, hc.2.1.symm⟩)]
      exact inv.l0_slot x' y' z' hxy' hz'
  · -- zero_elsewhere
    intro a ha
    have ha' : writeMem m.mem
        (pageAddr A (t.l0 (vpnAt va 2) (vpnAt va 1)) + 8 * vpnAt va 0)
        (leafVal pa bits) a ≠ 0 := ha
    by_cases haw : a = pageAddr A (t.l0 (vpnAt va 2) (vpnAt va 1)) + 8 * vpnAt va 0
    · right; right
      exact ⟨vpnAt va 2, vpnAt va 1, vpnAt va 0, by rwa [hact21E], vpnAt_lt va 0, haw⟩
    · rw [writeMem_ne _ _ haw] at ha'
      rcases inv.zero_elsewhere a ha' with ⟨x', h1, h2, h3⟩ | ⟨x', y', h1, h2, h3⟩ |
        ⟨x', y', z', h1, h2, h3⟩
      · exact Or.inl ⟨x', h1, by rwa [hact2E], h3⟩
      · exact Or.inr (Or.inl ⟨x', y', by rwa [hact2E], h2, h3⟩)
      · exact Or.inr (Or.inr ⟨x', y', z', by rwa [hact21E], h2, h3⟩)

/-- Any slot of a frame at or above the allocation watermark t.k reads
zero: the invariant locates all nonzero words in active tables, which
live in frames below t.k or in the root page below A. -/
lemma fresh_page_zero {np A R : Nat} {m : Machine} {M : List MapCall} {t : Tree}
    (sc : SideCond np A R) (inv : InvT np A R m M t)
    {j w : Nat} (hj : t.k ≤ j) (hw : w < 512) :
    m.mem (pageAddr A j + 8 * w) = 0 := by
  by_contra h
  rcases inv.zero_elsewhere _ h with ⟨x, hx, -, he⟩ | ⟨x, y, hx, hy, he⟩ |
    ⟨x, y, z, hxy, hz, he⟩
  · exact root_ne_page hx sc.hra he.symm
  · have := inv.l1_lt x hx
    exact page_slot_ne_of_page_ne hw hy (by omega) he
  · have := inv.l0_lt x y hxy
    exact page_slot_ne_of_page_ne hw hz (by omega) he

/-- Preservation of the invariant by one map call whose top-level VPN is
present but whose (level 2, level 1) path is new: the walk follows the
existing root branch, allocates one fresh frame for the level-0 table,
installs a branch to it in the level-1 table, and writes the leaf into
the fresh table. -/
lemma map_step_inv_l1_present {np A R : Nat} {m : Machine} {M : List MapCall} {t : Tree}
    (sc : SideCond np A R) (inv : InvT np A R m M t)
    {va pa bits : Nat} (hbits : ¬ bits &&& 0xe = 0)
    (hroom : 2 * M.length + 3 ≤ np)
    (hact2 : act2 M (vpnAt va 2) = true)
    (hnact : act21 M (vpnAt va 2) (vpnAt va 1) = false) :
    ∃ m2 t2, map np A m R va pa bits 0 = some m2 ∧
      InvT np A R m2 (M ++ [(va, pa, bits)]) t2 := by
  have hnp64 : np < 2 ^ 64 := by have := sc.hsz; omega
  have hk1 : t.k + 1 < np := by have := inv.kle; omega
  have hP1dvd : 4096 ∣ pageAddr A (t.l1 (vpnAt va 2)) :=
    dvd_add sc.hal (dvd_mul_right 4096 _)
  have hP1lt : pageAddr A (t.l1 (vpnAt va 2)) < 2 ^ 64 := by
    have h1 : t.l1 (vpnAt va 2) < t.k := inv.l1_lt _ hact2
    have h2 : 4096 * t.l1 (vpnAt va 2) + 4096 ≤ 4096 * np := by omega
    have := sc.hsz
    unfold pageAddr
    omega
  have hPkdvd : 4096 ∣ pageAddr A t.k := dvd_add sc.hal (dvd_mul_right 4096 _)
  have hPklt : pageAddr A t.k < 2 ^ 64 := by
    have h2 : 4096 * t.k + 4096 ≤ 4096 * np := by omega
    have := sc.hsz
    unfold pageAddr
    omega
  have hroot := inv.root_slot (vpnAt va 2) (vpnAt_lt va 2)
  rw [if_pos hact2] at hroot
  have hl1 := inv.l1_slot (vpnAt va 2) (vpnAt va 1) hact2 (vpnAt_lt va 1)
  rw [hnact] at hl1
  simp only [Bool.false_eq_true, if_false] at hl1
  have hs1 : mapLoopStep np A m (R + 8 * vpnAt va 2) (vpnAt va 1)
      = (m, pageAddr A (t.l1 (vpnAt va 2)) + 8 * vpnAt va 1) := by
    rw [mapLoopStep_valid hroot (branchVal_valid _), childAddr_branchVal hP1dvd hP1lt]
  have hs2 := @mapLoopStep_invalid np A t.k m
    (pageAddr A (t.l1 (vpnAt va 2)) + 8 * vpnAt va 1) (vpnAt va 0)
    hl1 inv.descs_eq hk1 hnp64
  rw [childAddr_branchVal hPkdvd hPklt] at hs2
  have hloop : mapLoop np A va m (R + 8 * vpnAt va 2) [1, 0]
      = (⟨writeMem m.mem (pageAddr A (t.l1 (vpnAt va 2)) + 8 * vpnAt va 1)
            (branchVal (pageAddr A t.k)), stepDescs (t.k + 1)⟩,
         pageAddr A t.k + 8 * vpnAt va 0) := by
    rw [mapLoop_cons, hs1]
    dsimp only
    rw [mapLoop_cons, hs2]
    rfl
  have hact2E : ∀ x', act2 (M ++ [(va, pa, bits)]) x' = act2 M x' := by
    intro x'
    rw [act2_append]
    by_cases h : vpnAt va 2 = x'
    · subst h; simp [hact2]
    · simp [h]
  have hnewpair : act21 (M ++ [(va, pa, bits)]) (vpnAt va 2) (vpnAt va 1) = true := by
    rw [act21_append]
    simp
  have hactold : ∀ x' y', ¬ (x' = vpnAt va 2 ∧ y' = vpnAt va 1) →
      act21 (M ++ [(va, pa, bits)]) x' y' = act21 M x' y' := by
    intro x' y' h
    rw [act21_append]
    by_cases h1 : vpnAt va 2 = x'
    · by_cases h2 : vpnAt va 1 = y'
      · exact absurd ⟨h1.symm, h2.symm⟩ h
      · simp [h2]
    · simp [h1]
  have hact21elim : ∀ x' y', act21 (M ++ [(va, pa, bits)]) x' y' = true →
      act21 M x' y' = true ∨ (x' = vpnAt va 2 ∧ y' = vpnAt va 1) := by
    intro x' y' h
    by_cases hp : x' = vpnAt va 2 ∧ y' = vpnAt va 1
    · exact Or.inr hp
    · rw [hactold x' y' hp] at h
      exact Or.inl h
  have hMold_ne : ∀ x' y', act21 M x' y' = true →
      ¬ (x' = vpnAt va 2 ∧ y' = vpnAt va 1) := by
    intro x' y' h hc
    obtain ⟨rfl, rfl⟩ := hc
    rw [h] at hnact
    exact absurd hnact (by decide)
  refine ⟨⟨writeMem (writeMem m.mem (pageAddr A (t.l1 (vpnAt va 2)) + 8 * vpnAt va 1)
        (branchVal (pageAddr A t.k))) (pageAddr A t.k + 8 * vpnAt va 0)
        (leafVal pa bits), stepDescs (t.k + 1)⟩,
      ⟨t.k + 1, t.l1,
        fun x' y' => if x' = vpnAt va 2 ∧ y' = vpnAt va 1 then t.k else t.l0 x' y'⟩,
      ?_, ?_⟩
  · rw [map_eval hbits, hloop]
  constructor
  · have := inv.kle
    simp only [List.length_append, List.length_cons, List.length_nil]
    omega
  · rfl
  · intro x' h
    have := inv.l1_lt x' (by rwa [hact2E] at h)
    dsimp only
    omega
  · intro x' y' h
    dsimp only
    rcases hact21elim x' y' h with hold | hnew
    · rw [if_neg (hMold_ne x' y' hold)]
      have := inv.l0_lt x' y' hold
      omega
    · rw [if_pos hnew]
      omega
  · intro x' xb h1 h2 h3
    exact inv.l1_inj x' xb (by rwa [hact2E] at h1) (by rwa [hact2E] at h2) h3
  · intro x' y' xb yb h1 h2 h3
    dsimp only at h3
    rcases hact21elim x' y' h1 with hold1 | hnew1
    · rcases hact21elim xb yb h2 with hold2 | hnew2
      · rw [if_neg (hMold_ne x' y' hold1), if_neg (hMold_ne xb yb hold2)] at h3
        exact inv.l0_inj x' y' xb yb hold1 hold2 h3
      · rw [if_neg (hMold_ne x' y' hold1), if_pos hnew2] at h3
        have := inv.l0_lt x' y' hold1
        omega
    · rcases hact21elim xb yb h2 with hold2 | hnew2
      · rw [if_pos hnew1, if_neg (hMold_ne xb yb hold2)] at h3
        have := inv.l0_lt xb yb hold2
        omega
      · exact ⟨hnew1.1.trans hnew2.1.symm, hnew1.2.trans hnew2.2.symm⟩
  · intro x' xb yb h1 h2
    dsimp only
    have h1' : act2 M x' = true := by rwa [hact2E] at h1
    rcases hact21elim xb yb h2 with hold | hnew
    · rw [if_neg (hMold_ne xb yb hold)]
      exact inv.l1_l0 x' xb yb h1' hold
    · rw [if_pos hnew]
      have := inv.l1_lt x' h1'
      omega
  · -- root_slot
    intro x' hx'
    show writeMem (writeMem m.mem _ _) _ _ _ = _
    rw [writeMem_ne _ _ (root_ne_page hx' sc.hra),
      writeMem_ne _ _ (root_ne_page hx' sc.hra), hact2E]
    exact inv.root_slot x' hx'
  · -- l1_slot
    intro x' y' hx' hy'
    have hx'M : act2 M x' = true := by rwa [hact2E] at hx'
    have hl1x'lt : t.l1 x' < t.k := inv.l1_lt x' hx'M
    dsimp only
    rw [writeMem_ne _ _ (show pageAddr A (t.l1 x') + 8 * y'
      ≠ pageAddr A t.k + 8 * vpnAt va 0
      from page_slot_ne_of_page_ne hy' (vpnAt_lt va 0) (by omega))]
    by_cases hxx : x' = vpnAt va 2
    · subst hxx
      by_cases hyy : y' = vpnAt va 1
      · subst hyy
        rw [writeMem_eq, if_pos hnewpair,
          if_pos (show (vpnAt va 2 : Nat) = vpnAt va 2 ∧ (vpnAt va 1 : Nat) = vpnAt va 1
            from ⟨rfl, rfl⟩)]
      · rw [writeMem_ne _ _ (page_slot_ne_same_page hyy),
          hactold _ y' (fun hc => hyy hc.2),
          if_neg (show ¬ ((vpnAt va 2 : Nat) = vpnAt va 2 ∧ y' = vpnAt va 1)
            from fun hc => hyy hc.2)]
        exact inv.l1_slot _ y' hx'M hy'
    · have hpage : t.l1 x' ≠ t.l1 (vpnAt va 2) := by
        intro he
        exact hxx (inv.l1_inj x' (vpnAt va 2) hx'M hact2 he)
      rw [writeMem_ne _ _ (page_slot_ne_of_page_ne hy' (vpnAt_lt va 1) hpage),
        hactold x' y' (fun hc => hxx hc.1),
        if_neg (show ¬ (x' = vpnAt va 2 ∧ y' = vpnAt va 1) from fun hc => hxx hc.1)]
      exact inv.l1_slot x' y' hx'M hy'
  · -- l0_slot
    intro x' y' z' hxy' hz'
    dsimp only
    rcases hact21elim x' y' hxy' with hold | hnew
    · have hne : ¬ (x' = vpnAt va 2 ∧ y' = vpnAt va 1) := hMold_ne x' y' hold
      rw [if_neg hne]
      have hl0lt : t.l0 x' y' < t.k := inv.l0_lt x' y' hold
      rw [writeMem_ne _ _ (show pageAddr A (t.l0 x' y') + 8 * z'
        ≠ pageAddr A t.k + 8 * vpnAt va 0
        from page_slot_ne_of_page_ne hz' (vpnAt_lt va 0) (by omega))]
      have hpage : t.l0 x' y' ≠ t.l1 (vpnAt va 2) :=
        fun he => inv.l1_l0 (vpnAt va 2) x' y' hact2 hold he.symm
      rw [writeMem_ne _ _ (show pageAddr A (t.l0 x' y') + 8 * z'
          ≠ pageAddr A (t.l1 (vpnAt va 2)) + 8 * vpnAt va 1
          from page_slot_ne_of_page_ne hz' (vpnAt_lt va 1) hpage)]
      have hllne : lastLeaf (M ++ [(va, pa, bits)]) x' y' z' = lastLeaf M x' y' z' :=
        lastLeaf_append_ne (fun hc => hne ⟨hc.1.symm, hc.2.1.symm⟩)
      rw [hllne]
      exact inv.l0_slot x' y' z' hold hz'
    · obtain ⟨rfl, rfl⟩ := hnew
      rw [if_pos (show (vpnAt va 2 : Nat) = vpnAt va 2 ∧ (vpnAt va 1 : Nat) = vpnAt va 1
        from ⟨rfl, rfl⟩)]
      by_cases hzz : z' = vpnAt va 0
      · subst hzz
        rw [writeMem_eq, lastLeaf_append_self]
      · rw [writeMem_ne _ _ (page_slot_ne_same_page hzz)]
        have hpage : (t.k : Nat) ≠ t.l1 (vpnAt va 2) := by
          have := inv.l1_lt _ hact2
          omega
        rw [writeMem_ne _ _ (show pageAddr A t.k + 8 * z'
          ≠ pageAddr A (t.l1 (vpnAt va 2)) + 8 * vpnAt va 1
          from page_slot_ne_of_page_ne hz' (vpnAt_lt va 1) hpage)]
        have hllne : lastLeaf (M ++ [(va, pa, bits)]) (vpnAt va 2) (vpnAt va 1) z'
            = lastLeaf M (vpnAt va 2) (vpnAt va 1) z' :=
          lastLeaf_append_ne (fun hc => hzz hc.2.2.symm)
        rw [hllne, lastLeaf_none_of_not_act21 hnact]
        exact fresh_page_zero sc inv le_rfl hz'
  · -- zero_elsewhere
    intro a ha
    have ha' : writeMem (writeMem m.mem
        (pageAddr A (t.l1 (vpnAt va 2)) + 8 * vpnAt va 1) (branchVal (pageAddr A t.k)))
        (pageAddr A t.k + 8 * vpnAt va 0) (leafVal pa bits) a ≠ 0 := ha
    by_cases ha2 : a = pageAddr A t.k + 8 * vpnAt va 0
    · right; right
      refine ⟨vpnAt va 2, vpnAt va 1, vpnAt va 0, hnewpair, vpnAt_lt va 0, ?_⟩
      dsimp only
      rw [if_pos (show (vpnAt va 2 : Nat) = vpnAt va 2 ∧ (vpnAt va 1 : Nat) = vpnAt va 1
        from ⟨rfl, rfl⟩)]
      exact ha2
    · rw [writeMem_ne _ _ ha2] at ha'
      by_cases ha1 : a = pageAddr A (t.l1 (vpnAt va 2)) + 8 * vpnAt va 1
      · right; left
        exact ⟨vpnAt va 2, vpnAt va 1, by rwa [hact2E], vpnAt_lt va 1, ha1⟩
      · rw [writeMem_ne _ _ ha1] at ha'
        rcases inv.zero_elsewhere a ha' with ⟨x', h1, h2, h3⟩ | ⟨x', y', h1, h2, h3⟩ |
          ⟨x', y', z', h1, h2, h3⟩
        · exact Or.inl ⟨x', h1, by rwa [hact2E], h3⟩
        · exact Or.inr (Or.inl ⟨x', y', by rwa [hact2E], h2, h3⟩)
        · refine Or.inr (Or.inr ⟨x', y', z', ?_, h2, ?_⟩)
          · rwa [hactold x' y' (hMold_ne x' y' h1)]
          · dsimp only
            rw [if_neg (hMold_ne x' y' h1)]
            exact h3

lemma root_slot_ne {R x x' : Nat} (h : x ≠ x') : R + 8 * x ≠ R + 8 * x' := by
  omega

/-- Preservation of the invariant by one map call whose top-level VPN is
new: the walk allocates one fresh frame for the level-1 table and another
for the level-0 table, installs the two branches, and writes the leaf
into the second fresh table. -/
lemma map_step_inv_fresh {np A R : Nat} {m : Machine} {M : List MapCall} {t : Tree}
    (sc : SideCond np A R) (inv : InvT np A R m M t)
    {va pa bits : Nat} (hbits : ¬ bits &&& 0xe = 0)
    (hroom : 2 * M.length + 3 ≤ np)
    (hnact2 : act2 M (vpnAt va 2) = false) :
    ∃ m2 t2, map np A m R va pa bits 0 = some m2 ∧
      InvT np A R m2 (M ++ [(va, pa, bits)]) t2 := by
  have hnp64 : np < 2 ^ 64 := by have := sc.hsz; omega
  have hk1 : t.k + 1 < np := by have := inv.kle; omega
  have hk2 : t.k + 1 + 1 < np := by have := inv.kle; omega
  have hPkdvd : 4096 ∣ pageAddr A t.k := dvd_add sc.hal (dvd_mul_right 4096 _)
  have hPklt : pageAddr A t.k < 2 ^ 64 := by
    have h2 : 4096 * t.k + 4096 ≤ 4096 * np := by omega
    have := sc.hsz
    unfold pageAddr
    omega
  have hPk1dvd : 4096 ∣ pageAddr A (t.k + 1) := dvd_add sc.hal (dvd_mul_right 4096 _)
  have hPk1lt : pageAddr A (t.k + 1) < 2 ^ 64 := by
    have h2 : 4096 * (t.k + 1) + 4096 ≤ 4096 * np := by omega
    have := sc.hsz
    unfold pageAddr
    omega
  have hnact21y : ∀ yb, act21 M (vpnAt va 2) yb = false := by
    intro yb
    cases h : act21 M (vpnAt va 2) yb
    · rfl
    · rw [act2_of_act21 h] at hnact2
      exact absurd hnact2 (by decide)
  have hMold2_ne : ∀ x', act2 M x' = true → x' ≠ vpnAt va 2 := by
    intro x' h hc
    rw [hc, hnact2] at h
    exact absurd h (by decide)
  have hMold_ne : ∀ x' y', act21 M x' y' = true →
      ¬ (x' = vpnAt va 2 ∧ y' = vpnAt va 1) := by
    intro x' y' h hc
    rw [hc.1] at h
    rw [hnact21y y'] at h
    exact absurd h (by decide)
  have hroot0 : m.mem (R + 8 * vpnAt va 2) = 0 := by
    have h := inv.root_slot (vpnAt va 2) (vpnAt_lt va 2)
    rw [hnact2] at h
    simpa using h
  have hs1 := @mapLoopStep_invalid np A t.k m
    (R + 8 * vpnAt va 2) (vpnAt va 1) hroot0 inv.descs_eq hk1 hnp64
  rw [childAddr_branchVal hPkdvd hPklt] at hs1
  have hW1ne : pageAddr A t.k + 8 * vpnAt va 1 ≠ R + 8 * vpnAt va 2 :=
    (root_ne_page (vpnAt_lt va 2) sc.hra).symm
  have he2 : (⟨writeMem m.mem (R + 8 * vpnAt va 2) (branchVal (pageAddr A t.k)),
      stepDescs (t.k + 1)⟩ : Machine).mem (pageAddr A t.k + 8 * vpnAt va 1) = 0 := by
    show writeMem m.mem _ _ _ = 0
    rw [writeMem_ne _ _ hW1ne]
    exact fresh_page_zero sc inv le_rfl (vpnAt_lt va 1)
  have hs2 := @mapLoopStep_invalid np A (t.k + 1)
    (⟨writeMem m.mem (R + 8 * vpnAt va 2) (branchVal (pageAddr A t.k)),
      stepDescs (t.k + 1)⟩ : Machine)
    (pageAddr A t.k + 8 * vpnAt va 1) (vpnAt va 0) he2 rfl hk2 hnp64
  rw [childAddr_branchVal hPk1dvd hPk1lt] at hs2
  have hloop : mapLoop np A va m (R + 8 * vpnAt va 2) [1, 0]
      = (⟨writeMem (writeMem m.mem (R + 8 * vpnAt va 2) (branchVal (pageAddr A t.k)))
            (pageAddr A t.k + 8 * vpnAt va 1) (branchVal (pageAddr A (t.k + 1))),
          stepDescs (t.k + 1 + 1)⟩,
         pageAddr A (t.k + 1) + 8 * vpnAt va 0) := by
    rw [mapLoop_cons, hs1]
    dsimp only
    rw [mapLoop_cons, hs2]
    rfl
  have hact2new : act2 (M ++ [(va, pa, bits)]) (vpnAt va 2) = true := by
    rw [act2_append]
    simp
  have hact2old : ∀ x', x' ≠ vpnAt va 2 →
      act2 (M ++ [(va, pa, bits)]) x' = act2 M x' := by
    intro x' h
    rw [act2_append]
    have h' : ¬ vpnAt va 2 = x' := fun hc => h hc.symm
    simp [h']
  have hact2elim : ∀ x', act2 (M ++ [(va, pa, bits)]) x' = true →
      act2 M x' = true ∨ x' = vpnAt va 2 := by
    intro x' h
    by_cases hp : x' = vpnAt va 2
    · exact Or.inr hp
    · rw [hact2old x' hp] at h
      exact Or.inl h
  have hnewpair : act21 (M ++ [(va, pa, bits)]) (vpnAt va 2) (vpnAt va 1) = true := by
    rw [act21_append]
    simp
  have hactold : ∀ x' y', ¬ (x' = vpnAt va 2 ∧ y' = vpnAt va 1) →
      act21 (M ++ [(va, pa, bits)]) x' y' = act21 M x' y' := by
    intro x' y' h
    rw [act21_append]
    by_cases h1 : vpnAt va 2 = x'
    · by_cases h2 : vpnAt va 1 = y'
      · exact absurd ⟨h1.symm, h2.symm⟩ h
      · simp [h2]
    · simp [h1]
  have hact21elim : ∀ x' y', act21 (M ++ [(va, pa, bits)]) x' y' = true →
      act21 M x' y' = true ∨ (x' = vpnAt va 2 ∧ y' = vpnAt va 1) := by
    intro x' y' h
    by_cases hp : x' = vpnAt va 2 ∧ y' = vpnAt va 1
    · exact Or.inr hp
    · rw [hactold x' y' hp] at h
      exact Or.inl h
  refine ⟨⟨writeMem (writeMem (writeMem m.mem (R + 8 * vpnAt va 2)
        (branchVal (pageAddr A t.k)))
        (pageAddr A t.k + 8 * vpnAt va 1) (branchVal (pageAddr A (t.k + 1))))
        (pageAddr A (t.k + 1) + 8 * vpnAt va 0) (leafVal pa bits),
      stepDescs (t.k + 1 + 1)⟩,
      ⟨t.k + 2,
        fun x' => if x' = vpnAt va 2 then t.k else t.l1 x',
        fun x' y' => if x' = vpnAt va 2 ∧ y' = vpnAt va 1 then t.k + 1 else t.l0 x' y'⟩,
      ?_, ?_⟩
  · rw [map_eval hbits, hloop]
  constructor
  · have := inv.kle
    simp only [List.length_append, List.length_cons, List.length_nil]
    omega
  · show stepDescs (t.k + 1 + 1) = stepDescs (t.k + 2)
    rfl
  · intro x' h
    dsimp only
    rcases hact2elim x' h with hold | hnew
    · rw [if_neg (hMold2_ne x' hold)]
      have := inv.l1_lt x' hold
      omega
    · rw [if_pos hnew]
      omega
  · intro x' y' h
    dsimp only
    rcases hact21elim x' y' h with hold | hnew
    · rw [if_neg (hMold_ne x' y' hold)]
      have := inv.l0_lt x' y' hold
      omega
    · rw [if_pos hnew]
      omega
  · intro x' xb h1 h2 h3
    dsimp only at h3
    rcases hact2elim x' h1 with hold1 | hnew1
    · rcases hact2elim xb h2 with hold2 | hnew2
      · rw [if_neg (hMold2_ne x' hold1), if_neg (hMold2_ne xb hold2)] at h3
        exact inv.l1_inj x' xb hold1 hold2 h3
      · rw [if_neg (hMold2_ne x' hold1), if_pos hnew2] at h3
        have := inv.l1_lt x' hold1
        omega
    · rcases hact2elim xb h2 with hold2 | hnew2
      · rw [if_pos hnew1, if_neg (hMold2_ne xb hold2)] at h3
        have := inv.l1_lt xb hold2
        omega
      · rw [hnew1, hnew2]
  · intro x' y' xb yb h1 h2 h3
    dsimp only at h3
    rcases hact21elim x' y' h1 with hold1 | hnew1
    · rcases hact21elim xb yb h2 with hold2 | hnew2
      · rw [if_neg (hMold_ne x' y' hold1), if_neg (hMold_ne xb yb hold2)] at h3
        exact inv.l0_inj x' y' xb yb hold1 hold2 h3
      · rw [if_neg (hMold_ne x' y' hold1), if_pos hnew2] at h3
        have := inv.l0_lt x' y' hold1
        omega
    · rcases hact21elim xb yb h2 with hold2 | hnew2
      · rw [if_pos hnew1, if_neg (hMold_ne xb yb hold2)] at h3
        have := inv.l0_lt xb yb hold2
        omega
      · exact ⟨hnew1.1.trans hnew2.1.symm, hnew1.2.trans hnew2.2.symm⟩
  · intro x' xb yb h1 h2
    dsimp only
    rcases hact2elim x' h1 with hold1 | hnew1
    · rcases hact21elim xb yb h2 with hold2 | hnew2
      · rw [if_neg (hMold2_ne x' hold1), if_neg (hMold_ne xb yb hold2)]
        exact inv.l1_l0 x' xb yb hold1 hold2
      · rw [if_neg (hMold2_ne x' hold1), if_pos hnew2]
        have := inv.l1_lt x' hold1
        omega
    · rcases hact21elim xb yb h2 with hold2 | hnew2
      · rw [if_pos hnew1, if_neg (hMold_ne xb yb hold2)]
        have := inv.l0_lt xb yb hold2
        omega
      · rw [if_pos hnew1, if_pos hnew2]
        omega
  · -- root_slot
    intro x' hx'
    dsimp only
    rw [writeMem_ne _ _ (root_ne_page hx' sc.hra),
      writeMem_ne _ _ (root_ne_page hx' sc.hra)]
    by_cases hxx : x' = vpnAt va 2
    · subst hxx
      rw [writeMem_eq, if_pos hact2new, if_pos rfl]
    · rw [writeMem_ne _ _ (root_slot_ne hxx), hact2old x' hxx,
        if_neg hxx]
      exact inv.root_slot x' hx'
  · -- l1_slot
    intro x' y' hx' hy'
    dsimp only
    rcases hact2elim x' hx' with hold | hnew
    · have hxne : x' ≠ vpnAt va 2 := hMold2_ne x' hold
      rw [if_neg hxne]
      have hlt : t.l1 x' < t.k := inv.l1_lt x' hold
      rw [writeMem_ne _ _ (show pageAddr A (t.l1 x') + 8 * y'
          ≠ pageAddr A (t.k + 1) + 8 * vpnAt va 0
          from page_slot_ne_of_page_ne hy' (vpnAt_lt va 0) (by omega)),
        writeMem_ne _ _ (show pageAddr A (t.l1 x') + 8 * y'
          ≠ pageAddr A t.k + 8 * vpnAt va 1
          from page_slot_ne_of_page_ne hy' (vpnAt_lt va 1) (by omega)),
        writeMem_ne _ _ ((root_ne_page (vpnAt_lt va 2) sc.hra).symm),
        hactold x' y' (fun hc => hxne hc.1),
        if_neg (show ¬ (x' = vpnAt va 2 ∧ y' = vpnAt va 1) from fun hc => hxne hc.1)]
      exact inv.l1_slot x' y' hold hy'
    · subst hnew
      rw [if_pos rfl]
      rw [writeMem_ne _ _ (show pageAddr A t.k + 8 * y'
          ≠ pageAddr A (t.k + 1) + 8 * vpnAt va 0
          from page_slot_ne_of_page_ne hy' (vpnAt_lt va 0) (by omega))]
      by_cases hyy : y' = vpnAt va 1
      · subst hyy
        rw [writeMem_eq, if_pos hnewpair,
          if_pos (show (vpnAt va 2 : Nat) = vpnAt va 2 ∧ (vpnAt va 1 : Nat) = vpnAt va 1
            from ⟨rfl, rfl⟩)]
      · rw [writeMem_ne _ _ (page_slot_ne_same_page hyy),
          writeMem_ne _ _ ((root_ne_page (vpnAt_lt va 2) sc.hra).symm),
          hactold _ y' (fun hc => hyy hc.2), hnact21y y']
        simp only [Bool.false_eq_true, if_false]
        exact fresh_page_zero sc inv le_rfl hy'
  · -- l0_slot
    intro x' y' z' hxy' hz'
    dsimp only
    rcases hact21elim x' y' hxy' with hold | hnew
    · have hne : ¬ (x' = vpnAt va 2 ∧ y' = vpnAt va 1) := hMold_ne x' y' hold
      rw [if_neg hne]
      have hlt : t.l0 x' y' < t.k := inv.l0_lt x' y' hold
      rw [writeMem_ne _ _ (show pageAddr A (t.l0 x' y') + 8 * z'
          ≠ pageAddr A (t.k + 1) + 8 * vpnAt va 0
          from page_slot_ne_of_page_ne hz' (vpnAt_lt va 0) (by omega)),
        writeMem_ne _ _ (show pageAddr A (t.l0 x' y') + 8 * z'
          ≠ pageAddr A t.k + 8 * vpnAt va 1
          from page_slot_ne_of_page_ne hz' (vpnAt_lt va 1) (by omega)),
        writeMem_ne _ _ ((root_ne_page (vpnAt_lt va 2) sc.hra).symm)]
      have hllne : lastLeaf (M ++ [(va, pa, bits)]) x' y' z' = lastLeaf M x' y' z' :=
        lastLeaf_append_ne (fun hc => hne ⟨hc.1.symm, hc.2.1.symm⟩)
      rw [hllne]
      exact inv.l0_slot x' y' z' hold hz'
    · obtain ⟨rfl, rfl⟩ := hnew
      rw [if_pos (show (vpnAt va 2 : Nat) = vpnAt va 2 ∧ (vpnAt va 1 : Nat) = vpnAt va 1
        from ⟨rfl, rfl⟩)]
      by_cases hzz : z' = vpnAt va 0
      · subst hzz
        rw [writeMem_eq, lastLeaf_append_self]
      · rw [writeMem_ne _ _ (page_slot_ne_same_page hzz),
          writeMem_ne _ _ (show pageAddr A (t.k + 1) + 8 * z'
            ≠ pageAddr A t.k + 8 * vpnAt va 1
            from page_slot_ne_of_page_ne hz' (vpnAt_lt va 1) (by omega)),
          writeMem_ne _ _ ((root_ne_page (vpnAt_lt va 2) sc.hra).symm)]
        have hllne : lastLeaf (M ++ [(va, pa, bits)]) (vpnAt va 2) (vpnAt va 1) z'
            = lastLeaf M (vpnAt va 2) (vpnAt va 1) z' :=
          lastLeaf_append_ne (fun hc => hzz hc.2.2.symm)
        rw [hllne, lastLeaf_none_of_not_act21 (hnact21y (vpnAt va 1))]
        exact fresh_page_zero sc inv (by omega) hz'
  · -- zero_elsewhere
    intro a ha
    have ha' : writeMem (writeMem (writeMem m.mem (R + 8 * vpnAt va 2)
        (branchVal (pageAddr A t.k)))
        (pageAddr A t.k + 8 * vpnAt va 1) (branchVal (pageAddr A (t.k + 1))))
        (pageAddr A (t.k + 1) + 8 * vpnAt va 0) (leafVal pa bits) a ≠ 0 := ha
    by_cases ha2 : a = pageAddr A (t.k + 1) + 8 * vpnAt va 0
    · right; right
      refine ⟨vpnAt va 2, vpnAt va 1, vpnAt va 0, hnewpair, vpnAt_lt va 0, ?_⟩
      dsimp only
      rw [if_pos (show (vpnAt va 2 : Nat) = vpnAt va 2 ∧ (vpnAt va 1 : Nat) = vpnAt va 1
        from ⟨rfl, rfl⟩)]
      exact ha2
    · rw [writeMem_ne _ _ ha2] at ha'
      by_cases ha1 : a = pageAddr A t.k + 8 * vpnAt va 1
      · right; left
        refine ⟨vpnAt va 2, vpnAt va 1, hact2new, vpnAt_lt va 1, ?_⟩
        dsimp only
        rw [if_pos rfl]
        exact ha1
      · rw [writeMem_ne _ _ ha1] at ha'
        by_cases ha0 : a = R + 8 * vpnAt va 2
        · left
          exact ⟨vpnAt va 2, vpnAt_lt va 2, hact2new, ha0⟩
        · rw [writeMem_ne _ _ ha0] at ha'
          rcases inv.zero_elsewhere a ha' with ⟨x', h1, h2, h3⟩ | ⟨x', y', h1, h2, h3⟩ |
            ⟨x', y', z', h1, h2, h3⟩
          · exact Or.inl ⟨x', h1, by rwa [hact2old x' (hMold2_ne x' h2)], h3⟩
          · refine Or.inr (Or.inl ⟨x', y', ?_, h2, ?_⟩)
            · rwa [hact2old x' (hMold2_ne x' h1)]
            · dsimp only
              rw [if_neg (hMold2_ne x' h1)]
              exact h3
          · refine Or.inr (Or.inr ⟨x', y', z', ?_, h2, ?_⟩)
            · rwa [hactold x' y' (hMold_ne x' y' h1)]
            · dsimp only
              rw [if_neg (hMold_ne x' y' h1)]
              exact h3

/-- Preservation of the invariant by any one map call at start level 0. -/
lemma map_step_inv {np A R : Nat} {m : Machine} {M : List MapCall} {t : Tree}
    (sc : SideCond np A R) (inv : InvT np A R m M t)
    {va pa bits : Nat} (hbits : ¬ bits &&& 0xe = 0)
    (hroom : 2 * M.length + 3 ≤ np) :
    ∃ m2 t2, map np A m R va pa bits 0 = some m2 ∧
      InvT np A R m2 (M ++ [(va, pa, bits)]) t2 := by
  cases h2 : act2 M (vpnAt va 2) with
  | false => exact map_step_inv_fresh sc inv hbits hroom h2
  | true =>
    cases h21 : act21 M (vpnAt va 2) (vpnAt va 1) with
    | false => exact map_step_inv_l1_present sc inv hbits hroom h2 h21
    | true =>
      obtain ⟨m2, h, hi⟩ := map_step_inv_present sc inv hbits hroom h21
      exact ⟨m2, t, h, hi⟩

/-- The invariant holds of the machine with all-zero RAM and a fresh
descriptor table, before any map call. -/
lemma inv_init (np A R : Nat) :
    InvT np A R ⟨fun _ => 0, fun _ => 0⟩ [] ⟨0, fun _ => 0, fun _ _ => 0⟩ := by
  constructor
  · simp
  · funext i
    simp [stepDescs]
  · intro x h
    simp [act2] at h
  · intro x y h
    simp [act21] at h
  · intro x x' h
    simp [act2] at h
  · intro x y x' y' h
    simp [act21] at h
  · intro x x' y' h
    simp [act2] at h
  · intro x hx
    simp [act2]
  · intro x y h
    simp [act2] at h
  · intro x y z h
    simp [act21] at h
  · intro a ha
    exact absurd rfl ha

/-- Running a list of well-formed map calls from the fresh machine
succeeds and establishes the invariant. -/
lemma mapMany_inv {np A R : Nat} (sc : SideCond np A R) :
    ∀ (calls : List MapCall) (m : Machine) (M : List MapCall) (t : Tree),
      InvT np A R m M t →
      (∀ c ∈ calls, ¬ c.2.2 &&& 0xe = 0) →
      2 * (M.length + calls.length) + 1 ≤ np →
      ∃ m2 t2, mapMany np A R m calls = some m2 ∧
        InvT np A R m2 (M ++ calls) t2 := by
  intro calls
  induction calls with
  | nil =>
    intro m M t inv _ _
    exact ⟨m, t, rfl, by simpa using inv⟩
  | cons c rest ih =>
    intro m M t inv hwf hlen
    simp only [List.length_cons] at hlen
    obtain ⟨m2, t2, hmap, hinv2⟩ :=
      @map_step_inv np A R m M t sc inv c.1 c.2.1 c.2.2
        (hwf c (List.mem_cons_self c rest)) (by omega)
    have hinv2' : InvT np A R m2 (M ++ [c]) t2 := hinv2
    obtain ⟨m3, t3, hrec, hinv3⟩ := ih m2 (M ++ [c]) t2 hinv2'
      (fun d hd => hwf d (List.mem_cons_of_mem c hd))
      (by simp only [List.length_append, List.length_cons, List.length_nil]; omega)
    refine ⟨m3, t3, ?_, ?_⟩
    · show (match map np A m R c.1 c.2.1 c.2.2 0 with
        | some mm => mapMany np A R mm rest
        | none => none) = some m3
      rw [hmap]
      exact hrec
    · rwa [show M ++ c :: rest = (M ++ [c]) ++ rest by simp]

/-! Stepping lemmas for the virt_to_phys walk. -/

lemma v2pLoop_invalid {mem : Nat → Nat} {vaddr vAddr i : Nat} {rest : List Nat}
    (h : entry_is_valid (mem vAddr) = false) :
    v2pLoop mem vaddr vAddr (i :: rest) = .ok none := by
  simp only [v2pLoop]
  rw [if_pos (by rw [h]; simp)]

lemma v2pLoop_branch {mem : Nat → Nat} {vaddr vAddr j : Nat} {rest : List Nat}
    (hv : entry_is_valid (mem vAddr) = true)
    (hl : entry_is_leaf (mem vAddr) = false) :
    v2pLoop mem vaddr vAddr ((j + 1) :: rest)
      = v2pLoop mem vaddr (childAddr (mem vAddr) + 8 * vpnAt vaddr j) rest := by
  simp only [v2pLoop]
  rw [if_neg (by rw [hv]; simp), if_neg (by rw [hl]; simp)]

lemma v2pLoop_leaf {mem : Nat → Nat} {vaddr vAddr i : Nat} {rest : List Nat}
    (hv : entry_is_valid (mem vAddr) = true)
    (hl : entry_is_leaf (mem vAddr) = true) :
    v2pLoop mem vaddr vAddr (i :: rest)
      = .ok (some ((((mem vAddr <<< 2) % WSIZE)
          &&& notMask64 ((1 <<< (12 + i * 9)) - 1))
        ||| (vaddr &&& ((1 <<< (12 + i * 9)) - 1)))) := by
  simp only [v2pLoop]
  rw [if_neg (by rw [hv]; simp), if_pos hl]

/-- In an invariant state, translating a virtual address whose VPN triple
was never mapped reaches an invalid (zero) entry and returns None. -/
lemma v2p_fresh_fault {np A R : Nat} {m : Machine} {M : List MapCall} {t : Tree}
    (sc : SideCond np A R) (inv : InvT np A R m M t) (hk : t.k ≤ np)
    {va : Nat}
    (hfresh : ∀ c ∈ M, ¬ (vpnAt c.1 2 = vpnAt va 2 ∧ vpnAt c.1 1 = vpnAt va 1
      ∧ vpnAt c.1 0 = vpnAt va 0)) :
    virt_to_phys m.mem R va = .ok none := by
  unfold virt_to_phys
  cases hx2 : act2 M (vpnAt va 2) with
  | false =>
    have hroot : m.mem (R + 8 * vpnAt va 2) = 0 := by
      have h := inv.root_slot (vpnAt va 2) (vpnAt_lt va 2)
      rw [hx2] at h
      simpa using h
    exact v2pLoop_invalid (by rw [hroot]; decide)
  | true =>
    have hP1dvd : 4096 ∣ pageAddr A (t.l1 (vpnAt va 2)) :=
      dvd_add sc.hal (dvd_mul_right 4096 _)
    have hP1lt : pageAddr A (t.l1 (vpnAt va 2)) < 2 ^ 64 := by
      have h1 : t.l1 (vpnAt va 2) < t.k := inv.l1_lt _ hx2
      have h2 : 4096 * t.l1 (vpnAt va 2) + 4096 ≤ 4096 * np := by omega
      have := sc.hsz
      unfold pageAddr
      omega
    have hroot := inv.root_slot (vpnAt va 2) (vpnAt_lt va 2)
    rw [if_pos hx2] at hroot
    rw [v2pLoop_branch (by rw [hroot]; exact branchVal_valid _)
        (by rw [hroot]; exact branchVal_not_leaf hP1dvd),
      hroot, childAddr_branchVal hP1dvd hP1lt]
    cases hx21 : act21 M (vpnAt va 2) (vpnAt va 1) with
    | false =>
      have hl1 := inv.l1_slot (vpnAt va 2) (vpnAt va 1) hx2 (vpnAt_lt va 1)
      rw [hx21] at hl1
      simp only [Bool.false_eq_true, if_false] at hl1
      exact v2pLoop_invalid (by rw [hl1]; decide)
    | true =>
      have hP0dvd : 4096 ∣ pageAddr A (t.l0 (vpnAt va 2) (vpnAt va 1)) :=
        dvd_add sc.hal (dvd_mul_right 4096 _)
      have hP0lt : pageAddr A (t.l0 (vpnAt va 2) (vpnAt va 1)) < 2 ^ 64 := by
        have h1 : t.l0 (vpnAt va 2) (vpnAt va 1) < t.k := inv.l0_lt _ _ hx21
        have h2 : 4096 * t.l0 (vpnAt va 2) (vpnAt va 1) + 4096 ≤ 4096 * np := by omega
        have := sc.hsz
        unfold pageAddr
        omega
      have hl1 := inv.l1_slot (vpnAt va 2) (vpnAt va 1) hx2 (vpnAt_lt va 1)
      rw [if_pos hx21] at hl1
      rw [v2pLoop_branch (by rw [hl1]; exact branchVal_valid _)
          (by rw [hl1]; exact branchVal_not_leaf hP0dvd),
        hl1, childAddr_branchVal hP0dvd hP0lt]
      have hl0 := inv.l0_slot (vpnAt va 2) (vpnAt va 1) (vpnAt va 0) hx21 (vpnAt_lt va 0)
      have hnone : lastLeaf M (vpnAt va 2) (vpnAt va 1) (vpnAt va 0) = none := by
        cases hll : lastLeaf M (vpnAt va 2) (vpnAt va 1) (vpnAt va 0) with
        | none => rfl
        | some c =>
          obtain ⟨hc, h2, h1, h0⟩ := lastLeaf_mem hll
          exact absurd ⟨h2, h1, h0⟩ (hfresh c hc)
      rw [hnone] at hl0
      exact v2pLoop_invalid (by rw [hl0]; decide)

/-- In an invariant state, translating a virtual address whose VPN triple
was mapped returns the decoded leaf entry of the last matching call. -/
lemma v2p_mapped {np A R : Nat} {m : Machine} {M : List MapCall} {t : Tree}
    (sc : SideCond np A R) (inv : InvT np A R m M t) (hk : t.k ≤ np)
    {va : Nat} {c : MapCall}
    (hll : lastLeaf M (vpnAt va 2) (vpnAt va 1) (vpnAt va 0) = some c)
    (hcb : ¬ c.2.2 &&& 0xe = 0) :
    virt_to_phys m.mem R va
      = .ok (some ((((leafVal c.2.1 c.2.2 <<< 2) % WSIZE)
          &&& notMask64 ((1 <<< (12 + 0 * 9)) - 1))
        ||| (va &&& ((1 <<< (12 + 0 * 9)) - 1)))) := by
  have hx21 : act21 M (vpnAt va 2) (vpnAt va 1) = true := act21_of_lastLeaf hll
  have hx2 : act2 M (vpnAt va 2) = true := act2_of_act21 hx21
  unfold virt_to_phys
  have hP1dvd : 4096 ∣ pageAddr A (t.l1 (vpnAt va 2)) :=
    dvd_add sc.hal (dvd_mul_right 4096 _)
  have hP1lt : pageAddr A (t.l1 (vpnAt va 2)) < 2 ^ 64 := by
    have h1 : t.l1 (vpnAt va 2) < t.k := inv.l1_lt _ hx2
    have h2 : 4096 * t.l1 (vpnAt va 2) + 4096 ≤ 4096 * np := by omega
    have := sc.hsz
    unfold pageAddr
    omega
  have hroot := inv.root_slot (vpnAt va 2) (vpnAt_lt va 2)
  rw [if_pos hx2] at hroot
  rw [v2pLoop_branch (by rw [hroot]; exact branchVal_valid _)
      (by rw [hroot]; exact branchVal_not_leaf hP1dvd),
    hroot, childAddr_branchVal hP1dvd hP1lt]
  have hP0dvd : 4096 ∣ pageAddr A (t.l0 (vpnAt va 2) (vpnAt va 1)) :=
    dvd_add sc.hal (dvd_mul_right 4096 _)
  have hP0lt : pageAddr A (t.l0 (vpnAt va 2) (vpnAt va 1)) < 2 ^ 64 := by
    have h1 : t.l0 (vpnAt va 2) (vpnAt va 1) < t.k := inv.l0_lt _ _ hx21
    have h2 : 4096 * t.l0 (vpnAt va 2) (vpnAt va 1) + 4096 ≤ 4096 * np := by omega
    have := sc.hsz
    unfold pageAddr
    omega
  have hl1 := inv.l1_slot (vpnAt va 2) (vpnAt va 1) hx2 (vpnAt_lt va 1)
  rw [if_pos hx21] at hl1
  rw [v2pLoop_branch (by rw [hl1]; exact branchVal_valid _)
      (by rw [hl1]; exact branchVal_not_leaf hP0dvd),
    hl1, childAddr_branchVal hP0dvd hP0lt]
  have hl0 := inv.l0_slot (vpnAt va 2) (vpnAt va 1) (vpnAt va 0) hx21 (vpnAt_lt va 0)
  rw [hll] at hl0
  rw [v2pLoop_leaf (by rw [hl0]; exact leafVal_valid _ _)
      (by rw [hl0]; exact leafVal_is_leaf hcb), hl0]

/-- C1 (amended): for every virtual address va, page-aligned physical
address pa below 2^56, and permission bits below 2^10 with at least one
of Read/Write/Execute set, mapping (va, pa, bits) at start level 0 --
after any sequence of well-formed map calls on a root table that started
zero-initialized with zero RAM, with enough free frames -- succeeds, and
virt_to_phys then returns Some (pa ||| (va &&& 0xfff)). -/
theorem map_then_virt_to_phys {np A R : Nat} (sc : SideCond np A R)
    {calls : List MapCall} (hwf : ∀ c ∈ calls, ¬ c.2.2 &&& 0xe = 0)
    (hlen : 2 * (calls.length + 1) + 1 ≤ np)
    {va pa bits : Nat} (hbits : ¬ bits &&& 0xe = 0) (hbits10 : bits < 1024)
    (hpa : 4096 ∣ pa) (hpalt : pa < 2 ^ 56) :
    ∃ m2, mapMany np A R ⟨fun _ => 0, fun _ => 0⟩ (calls ++ [(va, pa, bits)]) = some m2
      ∧ virt_to_phys m2.mem R va = .ok (some (pa ||| (va &&& 0xfff))) := by
  obtain ⟨m2, t2, hmm, hinv⟩ := mapMany_inv sc (calls ++ [(va, pa, bits)])
    ⟨fun _ => 0, fun _ => 0⟩ [] ⟨0, fun _ => 0, fun _ _ => 0⟩ (inv_init np A R)
    (by
      intro c hc
      rcases List.mem_append.mp hc with h | h
      · exact hwf c h
      · rw [List.mem_singleton] at h
        subst h
        exact hbits)
    (by
      simp only [List.length_nil, List.length_append, List.length_cons]
      omega)
  have hinv' : InvT np A R m2 (calls ++ [(va, pa, bits)]) t2 := by
    rwa [List.nil_append] at hinv
  have hk : t2.k ≤ np := by
    have := hinv'.kle
    simp only [List.length_append, List.length_cons, List.length_nil] at this
    omega
  have hll : lastLeaf (calls ++ [(va, pa, bits)]) (vpnAt va 2) (vpnAt va 1) (vpnAt va 0)
      = some (va, pa, bits) := lastLeaf_append_self calls va pa bits
  refine ⟨m2, hmm, ?_⟩
  rw [v2p_mapped sc hinv' hk hll hbits]
  dsimp only
  rw [show (12 + 0 * 9) = 12 by norm_num, leafVal_decode hpa hpalt hbits10,
    show ((1 <<< 12 : Nat) - 1) = 0xfff by decide]

/-- Witness for map_then_virt_to_phys: a single map call on the fresh
machine with np = 8, ALLOC_START = 0x2000, root at 0x1000; mapping
0x1000 to 0x80000000 with ReadWrite translates back to 0x80000000. -/
theorem map_then_virt_to_phys_witness :
    ∃ m2, mapMany 8 0x2000 0x1000 ⟨fun _ => 0, fun _ => 0⟩
        ([] ++ [(0x1000, 0x80000000, 6)]) = some m2
      ∧ virt_to_phys m2.mem 0x1000 0x1000
        = .ok (some (0x80000000 ||| (0x1000 &&& 0xfff))) :=
  map_then_virt_to_phys ⟨by decide, by decide, by decide⟩ (by decide) (by decide)
    (by decide) (by decide) (by decide) (by decide)

/-- C7 (amended): after any sequence of well-formed map calls on a root
table that started zero-initialized with zero RAM, virt_to_phys returns
None -- an absence, not a panic or halt -- for every virtual address
whose VPN triple (address bits 38:12) differs from that of every mapped
address. -/
theorem virt_to_phys_unmapped_none {np A R : Nat} (sc : SideCond np A R)
    {calls : List MapCall} (hwf : ∀ c ∈ calls, ¬ c.2.2 &&& 0xe = 0)
    (hlen : 2 * calls.length + 1 ≤ np)
    {va : Nat}
    (hfresh : ∀ c ∈ calls, ¬ (vpnAt c.1 2 = vpnAt va 2 ∧ vpnAt c.1 1 = vpnAt va 1
      ∧ vpnAt c.1 0 = vpnAt va 0)) :
    ∃ m2, mapMany np A R ⟨fun _ => 0, fun _ => 0⟩ calls = some m2
      ∧ virt_to_phys m2.mem R va = .ok none := by
  obtain ⟨m2, t2, hmm, hinv⟩ := mapMany_inv sc calls
    ⟨fun _ => 0, fun _ => 0⟩ [] ⟨0, fun _ => 0, fun _ _ => 0⟩ (inv_init np A R)
    hwf (by simp only [List.length_nil]; omega)
  have hinv' : InvT np A R m2 calls t2 := by
    rwa [List.nil_append] at hinv
  have hk : t2.k ≤ np := by
    have := hinv'.kle
    omega
  exact ⟨m2, hmm, v2p_fresh_fault sc hinv' hk hfresh⟩

/-- Witness for virt_to_phys_unmapped_none: after mapping 0x1000 (VPN
triple (0,0,1)), translating 0x200000 (VPN triple (0,1,0), never mapped)
returns None. -/
theorem virt_to_phys_unmapped_none_witness :
    ∃ m2, mapMany 8 0x2000 0x1000 ⟨fun _ => 0, fun _ => 0⟩
        [(0x1000, 0x80000000, 6)] = some m2
      ∧ virt_to_phys m2.mem 0x1000 0x200000 = .ok none :=
  virt_to_phys_unmapped_none ⟨by decide, by decide, by decide⟩ (by decide)
    (by decide) (by decide)

end Eos
